import Mathlib

/-!
Verification of the webscrape-to-wikijs crawler against its specification.

The Go sources are shallowly embedded over `List Char` (a Go string viewed as
its rune sequence; byte-level behaviour is modelled explicitly where it
matters, e.g. the 255-byte filename cap). Regular-expression operations are
translated into explicit scanners that follow the RE2 leftmost-match,
greedy semantics of the concrete patterns appearing in the source.
-/

set_option maxHeartbeats 1000000
set_option maxRecDepth 10000

namespace WsWk

/-- A Go string, viewed as its sequence of runes. -/
abbrev Str := List Char

/-- Conversion from a Lean string literal to the embedding's string type. -/
def str (s : String) : Str := s.data

/-- Membership of a character in a cutset (Go strings.Trim cutset semantics,
ASCII cutsets only at the call sites embedded here). -/
def charIn (set : Str) (c : Char) : Bool := set.contains c

/-- Go strings.TrimLeft with a cutset. -/
def trimLeftChars (set : Str) (l : Str) : Str := l.dropWhile (charIn set)

/-- Go strings.TrimRight with a cutset. -/
def trimRightChars (set : Str) (l : Str) : Str :=
  (l.reverse.dropWhile (charIn set)).reverse

/-- Go strings.Trim with a cutset: trim from the left, then from the right. -/
def trimChars (set : Str) (l : Str) : Str := trimRightChars set (trimLeftChars set l)

/-- RE2 whitespace class \s, i.e. [\t\n\f\r ] (path.go multiSpaces pattern). -/
def isGoSpace (c : Char) : Bool :=
  c = ' ' || c = '\t' || c = '\n' || c = '\x0c' || c = '\r'

/-- The character class of path.go's unsafeChars pattern [<>:"/\\|?*\x00-\x1f]. -/
def isUnsafeChar (c : Char) : Bool :=
  c = '<' || c = '>' || c = ':' || c = '"' || c = '/' || c = '\\' ||
  c = '|' || c = '?' || c = '*' || c.toNat ≤ 31

/-- regexp.ReplaceAllString for a pattern of the form X+ with a single-character
replacement: every maximal run of characters satisfying p collapses to rep.
The Boolean flag records whether the scanner is inside such a run. -/
def squashRuns (p : Char → Bool) (rep : Char) : Bool → Str → Str
  | _, [] => []
  | inRun, c :: rest =>
    if p c then
      if inRun then squashRuns p rep true rest else rep :: squashRuns p rep true rest
    else c :: squashRuns p rep false rest

/-- UTF-8 encoded size in bytes of one rune (Go len() counts bytes). -/
def utf8Len (c : Char) : Nat :=
  if c.toNat < 128 then 1
  else if c.toNat < 2048 then 2
  else if c.toNat < 65536 then 3
  else 4

/-- UTF-8 byte encoding of one rune. -/
def utf8Enc (c : Char) : List Nat :=
  let v := c.toNat
  if v < 128 then [v]
  else if v < 2048 then [192 + v / 64, 128 + v % 64]
  else if v < 65536 then [224 + v / 4096, 128 + (v / 64) % 64, 128 + v % 64]
  else [240 + v / 262144, 128 + (v / 4096) % 64, 128 + (v / 64) % 64, 128 + v % 64]

/-- UTF-8 byte sequence of a Go string. -/
def utf8Bytes (l : Str) : List Nat := (l.map utf8Enc).flatten

/-- Total UTF-8 byte length of a Go string (Go's len on a string). -/
def utf8ByteLen (l : Str) : Nat := (l.map utf8Len).sum

/-- Rune-level view of the byte slice s[:n]: keep runes while they fit entirely
within the first n bytes. When the cut of Go's s[:255] falls inside a
multi-byte rune, Go keeps that rune's leading bytes as invalid UTF-8; this
rune-level view drops them (the exact byte-level result is
SanitizeFilenameBytes below). -/
def byteTruncate (n : Nat) : Str → Str
  | [] => []
  | c :: rest => if utf8Len c ≤ n then c :: byteTruncate (n - utf8Len c) rest else []

/-- path.go SanitizeFilename, everything before the final 255-byte cap:
replace unsafe characters by underscore, collapse whitespace runs to one
space and dot runs to one dot, trim edge spaces/dots/underscores, and default
to "untitled" when empty or all underscores. -/
def sanitizeCore (name : Str) : Str :=
  let s1 := name.map (fun c => if isUnsafeChar c then '_' else c)
  let s2 := squashRuns isGoSpace ' ' false s1
  let s3 := squashRuns (fun c => c = '.') '.' false s2
  let s4 := trimChars (str " ._") s3
  if s4 = [] || trimChars (str "_") s4 = [] then str "untitled" else s4

/-- path.go SanitizeFilename (rune-level result; see byteTruncate's caveat on
cuts inside a multi-byte rune). -/
def SanitizeFilename (name : Str) : Str :=
  let s := sanitizeCore name
  if utf8ByteLen s > 255 then byteTruncate 255 s else s

/-- path.go SanitizeFilename viewed at the byte level: exactly Go's
sanitized[:255] slice when the sanitized form exceeds 255 bytes. -/
def SanitizeFilenameBytes (name : Str) : List Nat :=
  let b := utf8Bytes (sanitizeCore name)
  if b.length > 255 then b.take 255 else b

/-- Go strings.Split on a single-character separator. -/
def splitOnChar (sep : Char) : Str → List Str
  | [] => [[]]
  | c :: rest =>
    if c = sep then [] :: splitOnChar sep rest
    else
      match splitOnChar sep rest with
      | [] => [[c]]
      | g :: gs => (c :: g) :: gs

/-- Elementwise core of Go path/filepath.Clean for relative (non-rooted)
paths, which is the only shape produced by CalculateRelativePath: drop empty
and "." elements; ".." pops the previous element unless there is none or it
is itself ".." (then it is kept). The accumulator holds processed elements in
reverse. -/
def cleanElems : List Str → List Str → List Str
  | acc, [] => acc.reverse
  | acc, e :: rest =>
    if e = [] || e = str "." then cleanElems acc rest
    else if e = str ".." then
      match acc with
      | [] => cleanElems [str ".."] rest
      | top :: acc2 =>
        if top = str ".." then cleanElems (e :: acc) rest else cleanElems acc2 rest
    else cleanElems (e :: acc) rest

/-- Go path/filepath.Clean on a relative path (Unix separator). -/
def goClean (p : Str) : Str :=
  let cleaned := cleanElems [] (splitOnChar '/' p)
  if cleaned = [] then str "." else List.intercalate (str "/") cleaned

/-- Go path/filepath.Join (Unix): drop empty elements, join with "/", Clean;
empty when every element is empty. -/
def goFilepathJoin (elems : List Str) : Str :=
  let ne := elems.filter (fun e => e ≠ [])
  if ne = [] then [] else goClean (List.intercalate (str "/") ne)

/-- The common-prefix count of path.go CalculateRelativePath: compare the two
part lists pointwise, stopping at the first mismatch, for at most minLen
positions. -/
def commonUpTo : Nat → List Str → List Str → Nat
  | 0, _, _ => 0
  | _ + 1, [], _ => 0
  | _ + 1, _, [] => 0
  | n + 1, a :: as2, b :: bs => if a = b then 1 + commonUpTo n as2 bs else 0

/-- path.go CalculateRelativePath: sanitize both fragment lists, append the
sanitized target filename, count the common ordered prefix (bounded by the
shorter of source length and target length minus the filename), emit one ".."
per source level beyond it, then the remaining target parts. -/
def CalculateRelativePath (sourceFragments targetFragments : List Str)
    (targetTitle : Str) : Str :=
  let srcParts := (sourceFragments.filter (fun f => f ≠ [])).map SanitizeFilename
  let tgtBase := (targetFragments.filter (fun f => f ≠ [])).map SanitizeFilename
  let tgtParts := tgtBase ++ [SanitizeFilename targetTitle ++ str ".md"]
  let minLen := min srcParts.length (tgtParts.length - 1)
  let commonLen := commonUpTo minLen srcParts tgtParts
  let upLevels := srcParts.length - commonLen
  let relParts := List.replicate upLevels (str "..") ++ tgtParts.drop commonLen
  goFilepathJoin relParts

/-- ASCII model of Go strings.ToLower (unicode.ToLower restricted to ASCII;
NormalizeFilename afterwards keeps only [a-z0-9-], so non-ASCII runes are
dropped either way). -/
def goToLower (c : Char) : Char :=
  if 65 ≤ c.toNat && c.toNat ≤ 90 then Char.ofNat (c.toNat + 32) else c

/-- The character class [a-z0-9-] kept by NormalizeFilename. -/
def isKeepChar (c : Char) : Bool :=
  (97 ≤ c.toNat && c.toNat ≤ 122) || (48 ≤ c.toNat && c.toNat ≤ 57) || c = '-'

/-- path.go NormalizeFilename's extension strip: cut at the last dot when one
exists (strings.LastIndex). -/
def stripExt (l : Str) : Str :=
  if '.' ∈ l then ((l.reverse.dropWhile (fun c => c ≠ '.')).drop 1).reverse else l

/-- One pass of Go strings.ReplaceAll(s, "--", "-"): non-overlapping
left-to-right replacement of adjacent dash pairs. -/
def replaceDD : Str → Str
  | [] => []
  | [c] => [c]
  | c1 :: c2 :: rest =>
    if c1 = '-' && c2 = '-' then '-' :: replaceDD rest
    else c1 :: replaceDD (c2 :: rest)

/-- Whether a string contains the substring "--" (Go strings.Contains(s, "--")). -/
def hasDD : Str → Bool
  | [] => false
  | [_] => false
  | c1 :: c2 :: rest => if c1 = '-' && c2 = '-' then true else hasDD (c2 :: rest)

theorem replaceDD_length_le (l : Str) : (replaceDD l).length ≤ l.length := by
  match l with
  | [] => simp [replaceDD]
  | [c] => simp [replaceDD]
  | c1 :: c2 :: rest =>
    have h1 := replaceDD_length_le rest
    have h2 := replaceDD_length_le (c2 :: rest)
    by_cases h : c1 = '-' && c2 = '-' <;> simp [replaceDD, h] <;> simp at h2 <;> omega
termination_by l.length

theorem replaceDD_length_lt (l : Str) (h : hasDD l = true) :
    (replaceDD l).length < l.length := by
  match l with
  | [] => simp [hasDD] at h
  | [c] => simp [hasDD] at h
  | c1 :: c2 :: rest =>
    by_cases hd : c1 = '-' && c2 = '-'
    · have h1 := replaceDD_length_le rest
      simp [replaceDD, hd]
      omega
    · have h2 : hasDD (c2 :: rest) = true := by
        rw [hasDD] at h
        simpa [hd] using h
      have h3 := replaceDD_length_lt (c2 :: rest) h2
      simp [replaceDD, hd]
      simp at h3
      omega
termination_by l.length

/-- The loop in NormalizeFilename: replace "--" by "-" until no "--" remains.
Fuelled so that the definition computes by structural recursion; each
replacement strictly shortens the string (replaceDD_length_lt), so fuel equal
to the length always suffices (collapseDashes_hasDD below certifies that the
loop runs to completion, as Go's unbounded loop does). -/
def collapseDashesFuel : Nat → Str → Str
  | 0, l => l
  | n + 1, l => if hasDD l then collapseDashesFuel n (replaceDD l) else l

def collapseDashes (l : Str) : Str := collapseDashesFuel l.length l

theorem collapseDashesFuel_hasDD (fuel : Nat) (l : Str) (h : l.length ≤ fuel) :
    hasDD (collapseDashesFuel fuel l) = false := by
  induction fuel generalizing l with
  | zero =>
    interval_cases hl : l.length
    · rw [List.length_eq_zero] at hl
      subst hl
      simp [collapseDashesFuel, hasDD]
  | succ n ih =>
    rw [collapseDashesFuel]
    by_cases hdd : hasDD l = true
    · rw [hdd]
      simp only [if_true]
      exact ih _ (by have := replaceDD_length_lt l hdd; omega)
    · simp only [hdd]
      simpa using hdd

theorem collapseDashes_hasDD (l : Str) : hasDD (collapseDashes l) = false :=
  collapseDashesFuel_hasDD l.length l le_rfl

theorem collapseDashesFuel_of_no_dd (fuel : Nat) (l : Str) (h : hasDD l = false) :
    collapseDashesFuel fuel l = l := by
  cases fuel <;> simp [collapseDashesFuel, h]

/-- path.go NormalizeFilename: strip extension, lowercase, spaces to hyphens,
keep only [a-z0-9-], collapse dash runs, trim edge dashes, default "unnamed". -/
def NormalizeFilename (filename : Str) : Str :=
  let f1 := stripExt filename
  let f2 := f1.map goToLower
  let f3 := f2.map (fun c => if c = ' ' then '-' else c)
  let f4 := f3.filter isKeepChar
  let f5 := collapseDashes f4
  let f6 := trimChars (str "-") f5
  if f6 = [] then str "unnamed" else f6

theorem utf8Enc_ne_nil (c : Char) : utf8Enc c ≠ [] := by
  simp only [utf8Enc]
  split
  · simp
  · split
    · simp
    · split <;> simp

theorem utf8Bytes_ne_nil (l : Str) (h : l ≠ []) : utf8Bytes l ≠ [] := by
  match l with
  | [] => exact absurd rfl h
  | c :: rest =>
    simp only [utf8Bytes, List.map_cons, List.flatten_cons, ne_eq, List.append_eq_nil]
    intro hc
    exact utf8Enc_ne_nil c hc.1

theorem sanitizeCore_ne_nil (x : Str) : sanitizeCore x ≠ [] := by
  simp only [sanitizeCore]
  split
  · decide
  · next h =>
    intro hc
    simp [hc] at h

example : SanitizeFilename (str "file:with<bad>chars") = str "file_with_bad_chars" := by decide
example : SanitizeFilename (str "file   with   spaces") = str "file with spaces" := by decide
example : SanitizeFilename (str "") = str "untitled" := by decide
example : SanitizeFilename (str "<<<>>>") = str "untitled" := by decide
example : NormalizeFilename (str "API Reference: v2.0!") = str "api-reference-v2" := by decide
example : NormalizeFilename (str "--test--") = str "test" := by decide
example : CalculateRelativePath [str "guides", str "tutorials"] [str "guides", str "reference"] (str "target") = str "../reference/target.md" := by decide

/-- C2 counterexample: called with the raw title "Target", CalculateRelativePath
returns "Target.md", not the spec's "target.md" — SanitizeFilename never
lowercases, so the first spec example fails as stated. -/
theorem c2_raw_title_not_lowercased :
    CalculateRelativePath [str "guides", str "tutorials"] [str "guides", str "tutorials"]
      (str "Target") = str "Target.md" ∧ str "Target.md" ≠ str "target.md" := by
  constructor
  · decide
  · decide

/-- C2 amended: with the target title first passed through NormalizeFilename —
exactly what every call site (rewriteLinks / RewriteLinks) does before calling
CalculateRelativePath — both spec examples hold: same directory gives
"target.md" and disjoint hierarchies give "../../reference/api/target.md". -/
theorem c2_examples_with_normalized_title :
    CalculateRelativePath [str "guides", str "tutorials"] [str "guides", str "tutorials"]
      (NormalizeFilename (str "Target")) = str "target.md" ∧
    CalculateRelativePath [str "guides", str "tutorials"] [str "reference", str "api"]
      (NormalizeFilename (str "Target")) = str "../../reference/api/target.md" := by
  constructor
  · decide
  · decide

/-- C10: SanitizeFilename always yields a non-empty result of at most 255
bytes; when the sanitized form exceeds 255 bytes it is cut at the 255th byte
(the byte-level view SanitizeFilenameBytes is exactly Go's sanitized[:255]). -/
theorem c10_sanitize_filename_byte_bounds (name : Str) :
    0 < (SanitizeFilenameBytes name).length ∧ (SanitizeFilenameBytes name).length ≤ 255 := by
  have hne : utf8Bytes (sanitizeCore name) ≠ [] :=
    utf8Bytes_ne_nil _ (sanitizeCore_ne_nil name)
  have hpos : 0 < (utf8Bytes (sanitizeCore name)).length := List.length_pos.mpr hne
  simp only [SanitizeFilenameBytes]
  split
  · next h => simp [List.length_take]; omega
  · next h => constructor
              · exact hpos
              · omega

/-- C10 witness: the bounds theorem instantiated at a concrete 300-'a' name,
whose sanitized form exceeds 255 bytes and is truncated. -/
theorem c10_sanitize_filename_byte_bounds_witness :
    0 < (SanitizeFilenameBytes (List.replicate 300 'a')).length ∧
      (SanitizeFilenameBytes (List.replicate 300 'a')).length ≤ 255 :=
  c10_sanitize_filename_byte_bounds (List.replicate 300 'a')

theorem map_self_of {f : Char → Char} {l : Str} (h : ∀ c ∈ l, f c = c) :
    l.map f = l := by
  induction l with
  | nil => rfl
  | cons c rest ih =>
    simp only [List.map_cons, h c (by simp)]
    rw [ih fun d hd => h d (by simp [hd])]

theorem filter_self_of {p : Char → Bool} {l : Str} (h : ∀ c ∈ l, p c = true) :
    l.filter p = l := by
  induction l with
  | nil => rfl
  | cons c rest ih =>
    rw [List.filter_cons_of_pos (h c (by simp))]
    rw [ih fun d hd => h d (by simp [hd])]

theorem dropWhile_head_not {p : Char → Bool} {l : Str} {c : Char} {t : Str}
    (h : l.dropWhile p = c :: t) : p c = false := by
  induction l with
  | nil => simp at h
  | cons x rest ih =>
    rw [List.dropWhile_cons] at h
    by_cases hx : p x = true
    · exact ih (by simpa [hx] using h)
    · rw [if_neg hx] at h
      injection h with h1 _
      subst h1
      simpa using hx

theorem mem_dropWhile {p : Char → Bool} {l : Str} {c : Char}
    (h : c ∈ l.dropWhile p) : c ∈ l := by
  induction l with
  | nil => simp at h
  | cons x rest ih =>
    rw [List.dropWhile_cons] at h
    by_cases hx : p x = true
    · simp only [hx, if_true] at h
      exact List.mem_cons_of_mem x (ih h)
    · simp only [hx] at h
      simpa using h

theorem mem_trimChars {set l : Str} {c : Char} (h : c ∈ trimChars set l) : c ∈ l := by
  simp only [trimChars, trimRightChars, trimLeftChars] at h
  rw [List.mem_reverse] at h
  have h2 := mem_dropWhile h
  rw [List.mem_reverse] at h2
  exact mem_dropWhile h2

theorem trimChars_split (set l : Str) :
    ∃ a b, l = a ++ trimChars set l ++ b := by
  set p := charIn set with hp
  refine ⟨l.takeWhile p, ((l.dropWhile p).reverse.takeWhile p).reverse, ?_⟩
  simp only [trimChars, trimRightChars, trimLeftChars]
  conv_lhs => rw [← List.takeWhile_append_dropWhile p l]
  rw [List.append_assoc]
  congr 1
  conv_lhs => rw [← List.reverse_reverse (l.dropWhile p),
    ← List.takeWhile_append_dropWhile p ((l.dropWhile p).reverse)]
  rw [List.reverse_append]

theorem hasDD_cons_false {c : Char} {l : Str} (h : hasDD (c :: l) = false) :
    hasDD l = false := by
  cases l with
  | nil => rfl
  | cons y r =>
    rw [hasDD] at h
    by_cases hc : (c = '-' && y = '-') = true
    · rw [if_pos hc] at h
      exact absurd h (by simp)
    · rwa [if_neg hc] at h

theorem hasDD_append_false_left {x b : Str} (h : hasDD (x ++ b) = false) :
    hasDD x = false := by
  match x with
  | [] => rfl
  | [c] => rfl
  | c1 :: c2 :: rest =>
    rw [List.cons_append, List.cons_append, hasDD] at h
    rw [hasDD]
    by_cases hc : (c1 = '-' && c2 = '-') = true
    · rw [if_pos hc] at h
      exact absurd h (by simp)
    · rw [if_neg hc] at h
      rw [if_neg hc]
      exact @hasDD_append_false_left (c2 :: rest) b (by simpa using h)
termination_by x.length

theorem hasDD_append_false_right {a x : Str} (h : hasDD (a ++ x) = false) :
    hasDD x = false := by
  induction a with
  | nil => simpa using h
  | cons c rest ih =>
    rw [List.cons_append] at h
    exact ih (hasDD_cons_false h)

theorem hasDD_trimChars {set l : Str} (h : hasDD l = false) :
    hasDD (trimChars set l) = false := by
  obtain ⟨a, b, hab⟩ := trimChars_split set l
  rw [hab] at h
  exact hasDD_append_false_right (hasDD_append_false_left h)

theorem trimChars_getLast_not {set l : Str} {c : Char}
    (h : (trimChars set l).getLast? = some c) : charIn set c = false := by
  simp only [trimChars, trimRightChars, trimLeftChars] at h
  rw [List.getLast?_reverse] at h
  match hd : ((trimLeftChars set l).reverse.dropWhile (charIn set)) with
  | [] => rw [trimLeftChars] at hd; rw [hd] at h; simp at h
  | d :: t =>
    rw [trimLeftChars] at hd
    rw [hd] at h
    simp only [List.head?_cons, Option.some_inj] at h
    exact h ▸ dropWhile_head_not hd

theorem trimChars_head_not {set l : Str} {c : Char}
    (h : (trimChars set l).head? = some c) : charIn set c = false := by
  simp only [trimChars, trimRightChars, trimLeftChars] at h
  rw [List.head?_reverse] at h
  set z := (l.dropWhile (charIn set)).reverse with hz
  have hsplit : z.takeWhile (charIn set) ++ z.dropWhile (charIn set) = z :=
    List.takeWhile_append_dropWhile _ _
  match hd : z.dropWhile (charIn set) with
  | [] => rw [hd] at h; simp at h
  | d :: t =>
    rw [hd] at h
    have hz2 : z.getLast? = some c := by
      rw [← hsplit, hd, List.getLast?_append_of_ne_nil _ (by simp)]
      exact h
    rw [hz, List.getLast?_reverse] at hz2
    match he : l.dropWhile (charIn set) with
    | [] => rw [he] at hz2; simp at hz2
    | e :: t2 =>
      rw [he] at hz2
      simp only [List.head?_cons, Option.some_inj] at hz2
      exact hz2 ▸ dropWhile_head_not he

/-- The normal form reached by NormalizeFilename: only [a-z0-9-] characters,
no adjacent dash pair, and no dash at either edge. -/
def goodNF (l : Str) : Prop :=
  (∀ c ∈ l, isKeepChar c = true) ∧ hasDD l = false ∧
    l.head? ≠ some '-' ∧ l.getLast? ≠ some '-'

theorem keep_ne_dot {c : Char} (h : isKeepChar c = true) : c ≠ '.' := by
  intro hc
  subst hc
  simp [isKeepChar] at h

theorem keep_ne_space {c : Char} (h : isKeepChar c = true) : c ≠ ' ' := by
  intro hc
  subst hc
  simp [isKeepChar] at h

theorem keep_toLower {c : Char} (h : isKeepChar c = true) : goToLower c = c := by
  by_cases hc : c = '-'
  · subst hc
    decide
  · rw [goToLower, if_neg]
    simp only [isKeepChar, hc, Bool.or_eq_true, Bool.and_eq_true, decide_eq_true_eq,
      decide_eq_true_eq, or_false] at h
    simp only [Bool.and_eq_true, decide_eq_true_eq, not_and]
    rcases h with h | h <;> omega

theorem mem_replaceDD {c : Char} {l : Str} (h : c ∈ replaceDD l) :
    c ∈ l ∨ c = '-' := by
  match l with
  | [] => simp [replaceDD] at h
  | [d] =>
    simp only [replaceDD] at h
    exact Or.inl h
  | c1 :: c2 :: rest =>
    rw [replaceDD] at h
    by_cases hc : (c1 = '-' && c2 = '-') = true
    · rw [if_pos hc] at h
      rcases List.mem_cons.mp h with h | h
      · exact Or.inr h
      · rcases mem_replaceDD h with h | h
        · exact Or.inl (by simp [h])
        · exact Or.inr h
    · rw [if_neg hc] at h
      rcases List.mem_cons.mp h with h | h
      · exact Or.inl (by simp [h])
      · rcases mem_replaceDD h with h | h
        · exact Or.inl (List.mem_cons_of_mem _ h)
        · exact Or.inr h
termination_by l.length

theorem keep_replaceDD {l : Str} (h : ∀ c ∈ l, isKeepChar c = true) :
    ∀ c ∈ replaceDD l, isKeepChar c = true := by
  intro c hc
  rcases mem_replaceDD hc with h2 | h2
  · exact h c h2
  · subst h2
    decide

theorem keep_collapseFuel {l : Str} (fuel : Nat)
    (h : ∀ c ∈ l, isKeepChar c = true) :
    ∀ c ∈ collapseDashesFuel fuel l, isKeepChar c = true := by
  induction fuel generalizing l with
  | zero => exact h
  | succ n ih =>
    rw [collapseDashesFuel]
    by_cases hdd : hasDD l = true
    · rw [hdd, if_pos rfl]
      exact ih (keep_replaceDD h)
    · simp only [Bool.not_eq_true] at hdd
      rw [hdd]
      simpa using h

/-- NormalizeFilename is the identity on non-empty strings already in normal
form: every stage of the pipeline fixes such a string. -/
theorem normalizeFilename_fixed {r : Str} (hg : goodNF r) (hne : r ≠ []) :
    NormalizeFilename r = r := by
  obtain ⟨hkeep, hdd, hhead, hlast⟩ := hg
  have hdot : '.' ∉ r := fun hm => keep_ne_dot (hkeep _ hm) rfl
  have h1 : stripExt r = r := by rw [stripExt, if_neg hdot]
  have h2 : r.map goToLower = r := map_self_of fun c hc => keep_toLower (hkeep c hc)
  have h3 : r.map (fun c => if c = ' ' then '-' else c) = r :=
    map_self_of fun c hc => if_neg (keep_ne_space (hkeep c hc))
  have h4 : r.filter isKeepChar = r := filter_self_of hkeep
  have h5 : collapseDashes r = r := collapseDashesFuel_of_no_dd _ r hdd
  have h6 : trimChars (str "-") r = r := by
    have hl : trimLeftChars (str "-") r = r := by
      match r with
      | [] => rfl
      | c :: t =>
        rw [trimLeftChars, List.dropWhile_cons, if_neg]
        simp only [List.head?_cons, ne_eq, Option.some_inj] at hhead
        simp [charIn, str, hhead]
    have hr : trimRightChars (str "-") r = r := by
      rw [trimRightChars]
      match hrev : r.reverse with
      | [] => simp at hrev; simp [hrev]
      | c :: t =>
        have hc : c ≠ '-' := by
          have : r.getLast? = some c := by
            rw [← List.head?_reverse, hrev, List.head?_cons]
          intro hdash
          exact hlast (by rw [this, hdash])
        rw [List.dropWhile_cons, if_neg (by simp [charIn, str, hc]), ← hrev,
          List.reverse_reverse]
    rw [trimChars, hl, hr]
  rw [NormalizeFilename]
  simp only [h1, h2, h3, h4, h5, h6]
  rw [if_neg hne]

/-- NormalizeFilename always lands in the normal form (and is non-empty). -/
theorem normalizeFilename_good (x : Str) :
    goodNF (NormalizeFilename x) ∧ NormalizeFilename x ≠ [] := by
  rw [NormalizeFilename]
  set f4 := ((stripExt x).map goToLower |>.map (fun c => if c = ' ' then '-' else c)).filter
    isKeepChar with hf4
  set f5 := collapseDashes f4 with hf5
  set f6 := trimChars (str "-") f5 with hf6
  by_cases he : f6 = []
  · rw [if_pos he]
    refine ⟨⟨?_, ?_, ?_, ?_⟩, ?_⟩ <;> decide
  · rw [if_neg he]
    have hkeep5 : ∀ c ∈ f5, isKeepChar c = true := by
      rw [hf5]
      exact keep_collapseFuel _ (fun c hc => List.of_mem_filter hc)
    have hdd5 : hasDD f5 = false := collapseDashes_hasDD f4
    refine ⟨⟨?_, ?_, ?_, ?_⟩, he⟩
    · intro c hc
      exact hkeep5 c (mem_trimChars hc)
    · exact hasDD_trimChars hdd5
    · intro hh
      match hh2 : f6.head? with
      | none => rw [hh2] at hh; simp at hh
      | some c =>
        rw [hh2] at hh
        have := @trimChars_head_not (str "-") f5 _ (by rw [← hf6, hh2])
        injection hh with hh
        subst hh
        simp [charIn, str] at this
    · intro hh
      match hh2 : f6.getLast? with
      | none => rw [hh2] at hh; simp at hh
      | some c =>
        rw [hh2] at hh
        have := @trimChars_getLast_not (str "-") f5 _ (by rw [← hf6, hh2])
        injection hh with hh
        subst hh
        simp [charIn, str] at this

/-- C9: NormalizeFilename is idempotent — applying it twice gives the same
result as applying it once, for every input string. -/
theorem c9_normalize_filename_idempotent (x : Str) :
    NormalizeFilename (NormalizeFilename x) = NormalizeFilename x := by
  obtain ⟨hg, hne⟩ := normalizeFilename_good x
  exact normalizeFilename_fixed hg hne

/-- Whether l begins with the given pattern (Go strings.HasPrefix(l, pat)). -/
def beginsWith : Str → Str → Bool
  | _, [] => true
  | [], _ :: _ => false
  | c :: cs, d :: ds => c = d && beginsWith cs ds

/-- Go strings.Contains(hay, needle). -/
def containsSub (hay needle : Str) : Bool :=
  match hay with
  | [] => needle = []
  | _ :: rest => beginsWith hay needle || containsSub rest needle

/-- Index of the first occurrence of needle in hay (Go strings.Index). -/
def findSubIdx (hay needle : Str) : Option Nat :=
  match hay with
  | [] => if needle = [] then some 0 else none
  | _ :: rest =>
    if beginsWith hay needle then some 0
    else (findSubIdx rest needle).map (· + 1)

/-- The parsed pieces of a URL that the embedded code reads. -/
structure UrlParts where
  host : Str
  path : Str
  rawQuery : Str
deriving DecidableEq, Repr

/-- Text after the first occurrence of the scheme separator "://", when any. -/
def stripSchemeSep : Str → Option Str
  | [] => none
  | l@(_ :: rest) =>
    if beginsWith l (str "://") then some (l.drop 3) else stripSchemeSep rest

/-- A character still inside the authority (host) part of a URL. -/
def hostStop (c : Char) : Bool := !(c = '/' || c = '?' || c = '#')

/-- A character still inside the path part of a URL. -/
def pathStop (c : Char) : Bool := !(c = '?' || c = '#')

/-- Splitting the part after "://" into host, path and raw query. -/
def urlParseParts (rest : Str) : UrlParts :=
  let afterHost := rest.dropWhile hostStop
  let afterPath := afterHost.dropWhile pathStop
  { host := rest.takeWhile hostStop
    path := afterHost.takeWhile pathStop
    rawQuery :=
      match afterPath with
      | '?' :: q => q.takeWhile (fun c => c ≠ '#')
      | _ => [] }

/-- Model of Go net/url.Parse restricted to what the code reads: Host is the
authority between "://" and the next "/", "?" or "#"; Path runs to "?" or "#";
RawQuery follows "?". A string with no "://" parses with empty host (as Go
does for relative/opaque inputs); parse errors and percent-decoding are not
modelled (no embedded call site depends on them). -/
def urlParse (u : Str) : UrlParts :=
  match stripSchemeSep u with
  | none => { host := [], path := u, rawQuery := [] }
  | some rest => urlParseParts rest

/-- Lookup of one key in a raw query string (Go url.Values.Get: first value
of the key; percent-decoding not modelled). -/
def queryFind : List Str → Str → Str
  | [], _ => []
  | p :: rest, key =>
    let k := p.takeWhile (fun c => c ≠ '=')
    let v := (p.dropWhile (fun c => c ≠ '=')).drop 1
    if k = key then v else queryFind rest key

def queryGet (rawQuery key : Str) : Str :=
  queryFind (splitOnChar '&' rawQuery) key

/-- The character class [-\w] of the driveIDPattern regexp (RE2 \w is
[0-9A-Za-z_]). -/
def isWordHyphen (c : Char) : Bool :=
  (48 ≤ c.toNat && c.toNat ≤ 57) || (65 ≤ c.toNat && c.toNat ≤ 90) ||
    (97 ≤ c.toNat && c.toNat ≤ 122) || c = '_' || c = '-'

/-- driveIDPattern.FindStringSubmatch: the leftmost maximal run of at least 25
word-or-hyphen characters (a run of fewer than 25 starting at some position
stays under 25 at every later position inside it, so advancing one character
at a time is equivalent to skipping the run). -/
def findDriveID : Str → Option Str
  | [] => none
  | l@(_ :: rest) =>
    let run := l.takeWhile isWordHyphen
    if 25 ≤ run.length then some run else findDriveID rest

/-- Error cases of ExtractFileID (url.go returns them as error strings). -/
inductive ExtractErr
  | invalidURL
  | notDrive
  | noID
deriving DecidableEq, Repr

instance exceptDecEq {ε α : Type} [DecidableEq ε] [DecidableEq α] :
    DecidableEq (Except ε α) := fun a b =>
  match a, b with
  | .error e1, .error e2 => decidable_of_iff (e1 = e2) (by simp)
  | .ok a1, .ok a2 => decidable_of_iff (a1 = a2) (by simp)
  | .error _, .ok _ => .isFalse (by simp)
  | .ok _, .error _ => .isFalse (by simp)

/-- The per-element loop of url.go ExtractFileID over the path components:
at each component, first the Google-Forms pattern d/e/{id} (needing two
lookahead components), then d/{id} or folders/{id} (needing one). -/
def scanPartsUtils : List Str → Option Str
  | p :: e :: x :: rest =>
    if p = str "d" && e = str "e" then some x
    else if p = str "d" || p = str "folders" then some e
    else scanPartsUtils (e :: x :: rest)
  | [p, e] =>
    if p = str "d" || p = str "folders" then some e
    else scanPartsUtils [e]
  | _ => none

/-- url.go ExtractFileID: require a Google host, then path patterns, then the
id query parameter, then the permissive 25-character id scan over the whole
URL. -/
def ExtractFileID (urlStr : Str) : Except ExtractErr Str :=
  let u := urlParse urlStr
  if !containsSub u.host (str "drive.google.com") &&
      !containsSub u.host (str "docs.google.com") then
    .error .notDrive
  else
    match scanPartsUtils (splitOnChar '/' u.path) with
    | some id => .ok id
    | none =>
      let qid := queryGet u.rawQuery (str "id")
      if qid ≠ [] then .ok qid
      else
        match findDriveID urlStr with
        | some m => .ok m
        | none => .error .noID

/-- url.go BuildFileLink: fixed MIME-type to URL-template table with a generic
file-view fallback. -/
def BuildFileLink (fileID mimeType : Str) : Str :=
  if mimeType = str "application/vnd.google-apps.document" then
    str "https://docs.google.com/document/d/" ++ fileID ++ str "/edit"
  else if mimeType = str "application/vnd.google-apps.spreadsheet" then
    str "https://docs.google.com/spreadsheets/d/" ++ fileID ++ str "/edit"
  else if mimeType = str "application/vnd.google-apps.presentation" then
    str "https://docs.google.com/presentation/d/" ++ fileID ++ str "/edit"
  else if mimeType = str "application/vnd.google-apps.form" then
    str "https://docs.google.com/forms/d/e/" ++ fileID ++ str "/viewform"
  else if mimeType = str "application/vnd.google-apps.drawing" then
    str "https://docs.google.com/drawings/d/" ++ fileID ++ str "/edit"
  else if mimeType = str "application/vnd.google-apps.folder" then
    str "https://drive.google.com/drive/folders/" ++ fileID
  else
    str "https://drive.google.com/file/d/" ++ fileID ++ str "/view"

example : ExtractFileID (str "https://docs.google.com/document/d/abc123def456/edit") = .ok (str "abc123def456") := by decide
example : ExtractFileID (str "https://drive.google.com/drive/folders/folder789012") = .ok (str "folder789012") := by decide
example : ExtractFileID (str "not-a-url") = .error .notDrive := by decide
example : ExtractFileID (str "https://docs.google.com/document/d/abc123/edit?usp=sharing") = .ok (str "abc123") := by decide

/-- C7 counterexample: the host check admits only drive.google.com and
docs.google.com, so the spec's first example input with host
docs.example.com fails with the not-a-Google-Drive-URL error instead of
returning the id. -/
theorem c7_example_host_rejected :
    ExtractFileID (str "https://docs.example.com/document/d/abc123/edit") =
      .error .notDrive ∧
    ExtractFileID (str "https://docs.example.com/document/d/abc123/edit") ≠
      .ok (str "abc123") := by
  constructor
  · decide
  · decide

/-- C7 amended: on the allowed hosts the three spec examples hold — the d/id
pattern yields abc123, the nested forms d/e/id pattern yields XYZ, and an
unrecognized host fails. -/
theorem c7_extract_id_examples :
    ExtractFileID (str "https://docs.google.com/document/d/abc123/edit") = .ok (str "abc123") ∧
    ExtractFileID (str "https://docs.google.com/forms/d/e/XYZ/viewform") = .ok (str "XYZ") ∧
    ExtractFileID (str "https://other.com/x") = .error .notDrive := by
  refine ⟨?_, ?_, ?_⟩
  · decide
  · decide
  · decide

theorem takeWhile_eq_self_of_all {p : Char → Bool} {l : Str}
    (h : ∀ c ∈ l, p c = true) : l.takeWhile p = l := by
  induction l with
  | nil => rfl
  | cons c t ih =>
    rw [List.takeWhile_cons, if_pos (h c (by simp))]
    rw [ih fun d hd => h d (by simp [hd])]

theorem dropWhile_eq_nil_of_all {p : Char → Bool} {l : Str}
    (h : ∀ c ∈ l, p c = true) : l.dropWhile p = [] := by
  induction l with
  | nil => rfl
  | cons c t ih =>
    rw [List.dropWhile_cons, if_pos (h c (by simp))]
    exact ih fun d hd => h d (by simp [hd])

theorem splitOnChar_ne_nil (sep : Char) (l : Str) : splitOnChar sep l ≠ [] := by
  induction l with
  | nil => simp [splitOnChar]
  | cons c rest ih =>
    rw [splitOnChar]
    by_cases hc : c = sep
    · simp [hc]
    · rw [if_neg hc]
      match h : splitOnChar sep rest with
      | [] => exact absurd h ih
      | g :: gs => simp

theorem splitOnChar_cons_sep (sep : Char) (rest : Str) :
    splitOnChar sep (sep :: rest) = [] :: splitOnChar sep rest := by
  rw [splitOnChar, if_pos rfl]

theorem splitOnChar_no_sep {sep : Char} {a : Str} (h : sep ∉ a) :
    splitOnChar sep a = [a] := by
  induction a with
  | nil => rfl
  | cons c rest ih =>
    rw [splitOnChar, if_neg (by rintro rfl; exact h (by simp))]
    rw [ih fun hm => h (by simp [hm])]

theorem splitOnChar_append_sep {sep : Char} {a : Str} (b : Str) (h : sep ∉ a) :
    splitOnChar sep (a ++ sep :: b) = a :: splitOnChar sep b := by
  induction a with
  | nil => simpa using splitOnChar_cons_sep sep b
  | cons c rest ih =>
    rw [List.cons_append, splitOnChar, if_neg (by rintro rfl; exact h (by simp))]
    rw [ih fun hm => h (by simp [hm])]

theorem wordHyphen_pathStop {c : Char} (h : isWordHyphen c = true) :
    pathStop c = true := by
  have hq : c ≠ '?' := fun hc => absurd (hc ▸ h) (by decide)
  have hh : c ≠ '#' := fun hc => absurd (hc ▸ h) (by decide)
  simp [pathStop, hq, hh]

theorem wordHyphen_ne_slash {c : Char} (h : isWordHyphen c = true) : c ≠ '/' :=
  fun hc => absurd (hc ▸ h) (by decide)

/-- ExtractFileID reduced through an already-computed parse, host check and
path scan. -/
theorem extractFileID_of_parts {u host path id : Str}
    (hparse : urlParse u = { host := host, path := path, rawQuery := [] })
    (hhost : (!containsSub host (str "drive.google.com") &&
      !containsSub host (str "docs.google.com")) = false)
    (hscan : scanPartsUtils (splitOnChar '/' path) = some id) :
    ExtractFileID u = .ok id := by
  simp only [ExtractFileID, hparse, hhost, hscan]
  rw [if_neg (by simp)]

theorem extract_build_document {id : Str} (hw : ∀ c ∈ id, isWordHyphen c = true)
    (hnee : id ≠ str "e") :
    ExtractFileID (str "https://docs.google.com/document/d/" ++ id ++ str "/edit") =
      .ok id := by
  have hidq : ∀ c ∈ id, pathStop c = true := fun c hc => wordHyphen_pathStop (hw c hc)
  have hids : ('/' : Char) ∉ id := fun hm => wordHyphen_ne_slash (hw _ hm) rfl
  have hallp : ∀ c ∈ str "/document/d/" ++ id ++ str "/edit", pathStop c = true := by
    intro c hc
    rw [List.append_assoc] at hc
    rcases List.mem_append.mp hc with hc | hc
    · exact (by decide : ∀ c ∈ str "/document/d/", pathStop c = true) c hc
    · rcases List.mem_append.mp hc with hc | hc
      · exact hidq c hc
      · exact (by decide : ∀ c ∈ str "/edit", pathStop c = true) c hc
  have hs : stripSchemeSep (str "https://docs.google.com/document/d/" ++ id ++ str "/edit")
      = some (str "docs.google.com/document/d/" ++ id ++ str "/edit") := rfl
  have hafter : (str "docs.google.com/document/d/" ++ id ++ str "/edit").dropWhile hostStop
      = str "/document/d/" ++ id ++ str "/edit" := rfl
  have hparse : urlParse (str "https://docs.google.com/document/d/" ++ id ++ str "/edit") =
      { host := str "docs.google.com",
        path := str "/document/d/" ++ id ++ str "/edit", rawQuery := [] } := by
    rw [urlParse, hs]
    show urlParseParts (str "docs.google.com/document/d/" ++ id ++ str "/edit") = _
    simp only [urlParseParts]
    rw [hafter, takeWhile_eq_self_of_all hallp, dropWhile_eq_nil_of_all hallp]
    rfl
  have hshape : str "/document/d/" ++ id ++ str "/edit" =
      '/' :: (str "document" ++ '/' :: (str "d" ++ '/' :: (id ++ '/' :: str "edit"))) := rfl
  have hsplit : splitOnChar '/' (str "/document/d/" ++ id ++ str "/edit")
      = [[], str "document", str "d", id, str "edit"] := by
    rw [hshape, splitOnChar_cons_sep,
      splitOnChar_append_sep _ (by decide),
      splitOnChar_append_sep _ (by decide),
      splitOnChar_append_sep _ hids,
      splitOnChar_no_sep (by decide)]
  have hscan : scanPartsUtils [[], str "document", str "d", id, str "edit"] = some id := by
    rw [scanPartsUtils, if_neg (by decide), if_neg (by decide),
      scanPartsUtils, if_neg (by decide), if_neg (by decide),
      scanPartsUtils, if_neg (by simp [hnee]), if_pos (by decide)]
  exact extractFileID_of_parts hparse (by decide) (by rw [hsplit]; exact hscan)

theorem extract_build_spreadsheet {id : Str} (hw : ∀ c ∈ id, isWordHyphen c = true)
    (hnee : id ≠ str "e") :
    ExtractFileID (str "https://docs.google.com/spreadsheets/d/" ++ id ++ str "/edit") =
      .ok id := by
  have hidq : ∀ c ∈ id, pathStop c = true := fun c hc => wordHyphen_pathStop (hw c hc)
  have hids : ('/' : Char) ∉ id := fun hm => wordHyphen_ne_slash (hw _ hm) rfl
  have hallp : ∀ c ∈ str "/spreadsheets/d/" ++ id ++ str "/edit", pathStop c = true := by
    intro c hc
    rw [List.append_assoc] at hc
    rcases List.mem_append.mp hc with hc | hc
    · exact (by decide : ∀ c ∈ str "/spreadsheets/d/", pathStop c = true) c hc
    · rcases List.mem_append.mp hc with hc | hc
      · exact hidq c hc
      · exact (by decide : ∀ c ∈ str "/edit", pathStop c = true) c hc
  have hs : stripSchemeSep (str "https://docs.google.com/spreadsheets/d/" ++ id ++ str "/edit")
      = some (str "docs.google.com/spreadsheets/d/" ++ id ++ str "/edit") := rfl
  have hafter : (str "docs.google.com/spreadsheets/d/" ++ id ++ str "/edit").dropWhile hostStop
      = str "/spreadsheets/d/" ++ id ++ str "/edit" := rfl
  have hparse : urlParse (str "https://docs.google.com/spreadsheets/d/" ++ id ++ str "/edit") =
      { host := str "docs.google.com",
        path := str "/spreadsheets/d/" ++ id ++ str "/edit", rawQuery := [] } := by
    rw [urlParse, hs]
    show urlParseParts (str "docs.google.com/spreadsheets/d/" ++ id ++ str "/edit") = _
    simp only [urlParseParts]
    rw [hafter, takeWhile_eq_self_of_all hallp, dropWhile_eq_nil_of_all hallp]
    rfl
  have hshape : str "/spreadsheets/d/" ++ id ++ str "/edit" =
      '/' :: (str "spreadsheets" ++ '/' :: (str "d" ++ '/' :: (id ++ '/' :: str "edit"))) := rfl
  have hsplit : splitOnChar '/' (str "/spreadsheets/d/" ++ id ++ str "/edit")
      = [[], str "spreadsheets", str "d", id, str "edit"] := by
    rw [hshape, splitOnChar_cons_sep,
      splitOnChar_append_sep _ (by decide),
      splitOnChar_append_sep _ (by decide),
      splitOnChar_append_sep _ hids,
      splitOnChar_no_sep (by decide)]
  have hscan : scanPartsUtils [[], str "spreadsheets", str "d", id, str "edit"] = some id := by
    rw [scanPartsUtils, if_neg (by decide), if_neg (by decide),
      scanPartsUtils, if_neg (by decide), if_neg (by decide),
      scanPartsUtils, if_neg (by simp [hnee]), if_pos (by decide)]
  exact extractFileID_of_parts hparse (by decide) (by rw [hsplit]; exact hscan)

theorem extract_build_presentation {id : Str} (hw : ∀ c ∈ id, isWordHyphen c = true)
    (hnee : id ≠ str "e") :
    ExtractFileID (str "https://docs.google.com/presentation/d/" ++ id ++ str "/edit") =
      .ok id := by
  have hidq : ∀ c ∈ id, pathStop c = true := fun c hc => wordHyphen_pathStop (hw c hc)
  have hids : ('/' : Char) ∉ id := fun hm => wordHyphen_ne_slash (hw _ hm) rfl
  have hallp : ∀ c ∈ str "/presentation/d/" ++ id ++ str "/edit", pathStop c = true := by
    intro c hc
    rw [List.append_assoc] at hc
    rcases List.mem_append.mp hc with hc | hc
    · exact (by decide : ∀ c ∈ str "/presentation/d/", pathStop c = true) c hc
    · rcases List.mem_append.mp hc with hc | hc
      · exact hidq c hc
      · exact (by decide : ∀ c ∈ str "/edit", pathStop c = true) c hc
  have hs : stripSchemeSep (str "https://docs.google.com/presentation/d/" ++ id ++ str "/edit")
      = some (str "docs.google.com/presentation/d/" ++ id ++ str "/edit") := rfl
  have hafter : (str "docs.google.com/presentation/d/" ++ id ++ str "/edit").dropWhile hostStop
      = str "/presentation/d/" ++ id ++ str "/edit" := rfl
  have hparse : urlParse (str "https://docs.google.com/presentation/d/" ++ id ++ str "/edit") =
      { host := str "docs.google.com",
        path := str "/presentation/d/" ++ id ++ str "/edit", rawQuery := [] } := by
    rw [urlParse, hs]
    show urlParseParts (str "docs.google.com/presentation/d/" ++ id ++ str "/edit") = _
    simp only [urlParseParts]
    rw [hafter, takeWhile_eq_self_of_all hallp, dropWhile_eq_nil_of_all hallp]
    rfl
  have hshape : str "/presentation/d/" ++ id ++ str "/edit" =
      '/' :: (str "presentation" ++ '/' :: (str "d" ++ '/' :: (id ++ '/' :: str "edit"))) := rfl
  have hsplit : splitOnChar '/' (str "/presentation/d/" ++ id ++ str "/edit")
      = [[], str "presentation", str "d", id, str "edit"] := by
    rw [hshape, splitOnChar_cons_sep,
      splitOnChar_append_sep _ (by decide),
      splitOnChar_append_sep _ (by decide),
      splitOnChar_append_sep _ hids,
      splitOnChar_no_sep (by decide)]
  have hscan : scanPartsUtils [[], str "presentation", str "d", id, str "edit"] = some id := by
    rw [scanPartsUtils, if_neg (by decide), if_neg (by decide),
      scanPartsUtils, if_neg (by decide), if_neg (by decide),
      scanPartsUtils, if_neg (by simp [hnee]), if_pos (by decide)]
  exact extractFileID_of_parts hparse (by decide) (by rw [hsplit]; exact hscan)

theorem extract_build_drawing {id : Str} (hw : ∀ c ∈ id, isWordHyphen c = true)
    (hnee : id ≠ str "e") :
    ExtractFileID (str "https://docs.google.com/drawings/d/" ++ id ++ str "/edit") =
      .ok id := by
  have hidq : ∀ c ∈ id, pathStop c = true := fun c hc => wordHyphen_pathStop (hw c hc)
  have hids : ('/' : Char) ∉ id := fun hm => wordHyphen_ne_slash (hw _ hm) rfl
  have hallp : ∀ c ∈ str "/drawings/d/" ++ id ++ str "/edit", pathStop c = true := by
    intro c hc
    rw [List.append_assoc] at hc
    rcases List.mem_append.mp hc with hc | hc
    · exact (by decide : ∀ c ∈ str "/drawings/d/", pathStop c = true) c hc
    · rcases List.mem_append.mp hc with hc | hc
      · exact hidq c hc
      · exact (by decide : ∀ c ∈ str "/edit", pathStop c = true) c hc
  have hs : stripSchemeSep (str "https://docs.google.com/drawings/d/" ++ id ++ str "/edit")
      = some (str "docs.google.com/drawings/d/" ++ id ++ str "/edit") := rfl
  have hafter : (str "docs.google.com/drawings/d/" ++ id ++ str "/edit").dropWhile hostStop
      = str "/drawings/d/" ++ id ++ str "/edit" := rfl
  have hparse : urlParse (str "https://docs.google.com/drawings/d/" ++ id ++ str "/edit") =
      { host := str "docs.google.com",
        path := str "/drawings/d/" ++ id ++ str "/edit", rawQuery := [] } := by
    rw [urlParse, hs]
    show urlParseParts (str "docs.google.com/drawings/d/" ++ id ++ str "/edit") = _
    simp only [urlParseParts]
    rw [hafter, takeWhile_eq_self_of_all hallp, dropWhile_eq_nil_of_all hallp]
    rfl
  have hshape : str "/drawings/d/" ++ id ++ str "/edit" =
      '/' :: (str "drawings" ++ '/' :: (str "d" ++ '/' :: (id ++ '/' :: str "edit"))) := rfl
  have hsplit : splitOnChar '/' (str "/drawings/d/" ++ id ++ str "/edit")
      = [[], str "drawings", str "d", id, str "edit"] := by
    rw [hshape, splitOnChar_cons_sep,
      splitOnChar_append_sep _ (by decide),
      splitOnChar_append_sep _ (by decide),
      splitOnChar_append_sep _ hids,
      splitOnChar_no_sep (by decide)]
  have hscan : scanPartsUtils [[], str "drawings", str "d", id, str "edit"] = some id := by
    rw [scanPartsUtils, if_neg (by decide), if_neg (by decide),
      scanPartsUtils, if_neg (by decide), if_neg (by decide),
      scanPartsUtils, if_neg (by simp [hnee]), if_pos (by decide)]
  exact extractFileID_of_parts hparse (by decide) (by rw [hsplit]; exact hscan)

theorem extract_build_form {id : Str} (hw : ∀ c ∈ id, isWordHyphen c = true) :
    ExtractFileID (str "https://docs.google.com/forms/d/e/" ++ id ++ str "/viewform") =
      .ok id := by
  have hidq : ∀ c ∈ id, pathStop c = true := fun c hc => wordHyphen_pathStop (hw c hc)
  have hids : ('/' : Char) ∉ id := fun hm => wordHyphen_ne_slash (hw _ hm) rfl
  have hallp : ∀ c ∈ str "/forms/d/e/" ++ id ++ str "/viewform", pathStop c = true := by
    intro c hc
    rw [List.append_assoc] at hc
    rcases List.mem_append.mp hc with hc | hc
    · exact (by decide : ∀ c ∈ str "/forms/d/e/", pathStop c = true) c hc
    · rcases List.mem_append.mp hc with hc | hc
      · exact hidq c hc
      · exact (by decide : ∀ c ∈ str "/viewform", pathStop c = true) c hc
  have hs : stripSchemeSep (str "https://docs.google.com/forms/d/e/" ++ id ++ str "/viewform")
      = some (str "docs.google.com/forms/d/e/" ++ id ++ str "/viewform") := rfl
  have hafter : (str "docs.google.com/forms/d/e/" ++ id ++ str "/viewform").dropWhile hostStop
      = str "/forms/d/e/" ++ id ++ str "/viewform" := rfl
  have hparse : urlParse (str "https://docs.google.com/forms/d/e/" ++ id ++ str "/viewform") =
      { host := str "docs.google.com",
        path := str "/forms/d/e/" ++ id ++ str "/viewform", rawQuery := [] } := by
    rw [urlParse, hs]
    show urlParseParts (str "docs.google.com/forms/d/e/" ++ id ++ str "/viewform") = _
    simp only [urlParseParts]
    rw [hafter, takeWhile_eq_self_of_all hallp, dropWhile_eq_nil_of_all hallp]
    rfl
  have hshape : str "/forms/d/e/" ++ id ++ str "/viewform" =
      '/' :: (str "forms" ++ '/' :: (str "d" ++ '/' ::
        (str "e" ++ '/' :: (id ++ '/' :: str "viewform")))) := rfl
  have hsplit : splitOnChar '/' (str "/forms/d/e/" ++ id ++ str "/viewform")
      = [[], str "forms", str "d", str "e", id, str "viewform"] := by
    rw [hshape, splitOnChar_cons_sep,
      splitOnChar_append_sep _ (by decide),
      splitOnChar_append_sep _ (by decide),
      splitOnChar_append_sep _ (by decide),
      splitOnChar_append_sep _ hids,
      splitOnChar_no_sep (by decide)]
  have hscan : scanPartsUtils [[], str "forms", str "d", str "e", id, str "viewform"]
      = some id := by
    rw [scanPartsUtils, if_neg (by decide), if_neg (by decide),
      scanPartsUtils, if_neg (by decide), if_neg (by decide),
      scanPartsUtils, if_pos (by decide)]
  exact extractFileID_of_parts hparse (by decide) (by rw [hsplit]; exact hscan)

theorem extract_build_folder {id : Str} (hw : ∀ c ∈ id, isWordHyphen c = true) :
    ExtractFileID (str "https://drive.google.com/drive/folders/" ++ id) = .ok id := by
  have hidq : ∀ c ∈ id, pathStop c = true := fun c hc => wordHyphen_pathStop (hw c hc)
  have hids : ('/' : Char) ∉ id := fun hm => wordHyphen_ne_slash (hw _ hm) rfl
  have hallp : ∀ c ∈ str "/drive/folders/" ++ id, pathStop c = true := by
    intro c hc
    rcases List.mem_append.mp hc with hc | hc
    · exact (by decide : ∀ c ∈ str "/drive/folders/", pathStop c = true) c hc
    · exact hidq c hc
  have hs : stripSchemeSep (str "https://drive.google.com/drive/folders/" ++ id)
      = some (str "drive.google.com/drive/folders/" ++ id) := rfl
  have hafter : (str "drive.google.com/drive/folders/" ++ id).dropWhile hostStop
      = str "/drive/folders/" ++ id := rfl
  have hparse : urlParse (str "https://drive.google.com/drive/folders/" ++ id) =
      { host := str "drive.google.com",
        path := str "/drive/folders/" ++ id, rawQuery := [] } := by
    rw [urlParse, hs]
    show urlParseParts (str "drive.google.com/drive/folders/" ++ id) = _
    simp only [urlParseParts]
    rw [hafter, takeWhile_eq_self_of_all hallp, dropWhile_eq_nil_of_all hallp]
    rfl
  have hshape : str "/drive/folders/" ++ id =
      '/' :: (str "drive" ++ '/' :: (str "folders" ++ '/' :: id)) := rfl
  have hsplit : splitOnChar '/' (str "/drive/folders/" ++ id)
      = [[], str "drive", str "folders", id] := by
    rw [hshape, splitOnChar_cons_sep,
      splitOnChar_append_sep _ (by decide),
      splitOnChar_append_sep _ (by decide),
      splitOnChar_no_sep hids]
  have hscan : scanPartsUtils [[], str "drive", str "folders", id] = some id := by
    rw [scanPartsUtils, if_neg (by decide), if_neg (by decide),
      scanPartsUtils, if_neg (by decide), if_neg (by decide),
      scanPartsUtils, if_pos (by decide)]
  exact extractFileID_of_parts hparse (by decide) (by rw [hsplit]; exact hscan)

theorem extract_build_fileview {id : Str} (hw : ∀ c ∈ id, isWordHyphen c = true)
    (hnee : id ≠ str "e") :
    ExtractFileID (str "https://drive.google.com/file/d/" ++ id ++ str "/view") =
      .ok id := by
  have hidq : ∀ c ∈ id, pathStop c = true := fun c hc => wordHyphen_pathStop (hw c hc)
  have hids : ('/' : Char) ∉ id := fun hm => wordHyphen_ne_slash (hw _ hm) rfl
  have hallp : ∀ c ∈ str "/file/d/" ++ id ++ str "/view", pathStop c = true := by
    intro c hc
    rw [List.append_assoc] at hc
    rcases List.mem_append.mp hc with hc | hc
    · exact (by decide : ∀ c ∈ str "/file/d/", pathStop c = true) c hc
    · rcases List.mem_append.mp hc with hc | hc
      · exact hidq c hc
      · exact (by decide : ∀ c ∈ str "/view", pathStop c = true) c hc
  have hs : stripSchemeSep (str "https://drive.google.com/file/d/" ++ id ++ str "/view")
      = some (str "drive.google.com/file/d/" ++ id ++ str "/view") := rfl
  have hafter : (str "drive.google.com/file/d/" ++ id ++ str "/view").dropWhile hostStop
      = str "/file/d/" ++ id ++ str "/view" := rfl
  have hparse : urlParse (str "https://drive.google.com/file/d/" ++ id ++ str "/view") =
      { host := str "drive.google.com",
        path := str "/file/d/" ++ id ++ str "/view", rawQuery := [] } := by
    rw [urlParse, hs]
    show urlParseParts (str "drive.google.com/file/d/" ++ id ++ str "/view") = _
    simp only [urlParseParts]
    rw [hafter, takeWhile_eq_self_of_all hallp, dropWhile_eq_nil_of_all hallp]
    rfl
  have hshape : str "/file/d/" ++ id ++ str "/view" =
      '/' :: (str "file" ++ '/' :: (str "d" ++ '/' :: (id ++ '/' :: str "view"))) := rfl
  have hsplit : splitOnChar '/' (str "/file/d/" ++ id ++ str "/view")
      = [[], str "file", str "d", id, str "view"] := by
    rw [hshape, splitOnChar_cons_sep,
      splitOnChar_append_sep _ (by decide),
      splitOnChar_append_sep _ (by decide),
      splitOnChar_append_sep _ hids,
      splitOnChar_no_sep (by decide)]
  have hscan : scanPartsUtils [[], str "file", str "d", id, str "view"] = some id := by
    rw [scanPartsUtils, if_neg (by decide), if_neg (by decide),
      scanPartsUtils, if_neg (by decide), if_neg (by decide),
      scanPartsUtils, if_neg (by simp [hnee]), if_pos (by decide)]
  exact extractFileID_of_parts hparse (by decide) (by rw [hsplit]; exact hscan)

/-- C8 counterexample: for the one-character id "e" and a template of the
/d/id form, the rebuilt URL .../document/d/e/edit triggers ExtractFileID's
Google-Forms lookahead (d followed by e), which returns the next component
"edit" instead of "e" — so BuildFileLink is not inverted by ExtractFileID
there. -/
theorem c8_roundtrip_fails_on_e :
    ExtractFileID (BuildFileLink (str "e") (str "application/vnd.google-apps.document")) =
      .ok (str "edit") ∧ str "edit" ≠ str "e" := by
  constructor
  · decide
  · decide

/-- C8 amended: for every non-empty word-or-hyphen id other than the single
character "e", and for every contentType (each fixed template and the generic
file-view fallback), ExtractFileID inverts BuildFileLink. (For id = "e" the
form and folder templates still invert; the /d/id templates do not, per the
counterexample.) -/
theorem c8_build_link_extract_roundtrip (id mime : Str)
    (hw : ∀ c ∈ id, isWordHyphen c = true) (hne : id ≠ [])
    (hnee : id ≠ str "e") :
    ExtractFileID (BuildFileLink id mime) = .ok id := by
  rw [BuildFileLink]
  by_cases h1 : mime = str "application/vnd.google-apps.document"
  · rw [if_pos h1]
    exact extract_build_document hw hnee
  · rw [if_neg h1]
    by_cases h2 : mime = str "application/vnd.google-apps.spreadsheet"
    · rw [if_pos h2]
      exact extract_build_spreadsheet hw hnee
    · rw [if_neg h2]
      by_cases h3 : mime = str "application/vnd.google-apps.presentation"
      · rw [if_pos h3]
        exact extract_build_presentation hw hnee
      · rw [if_neg h3]
        by_cases h4 : mime = str "application/vnd.google-apps.form"
        · rw [if_pos h4]
          exact extract_build_form hw
        · rw [if_neg h4]
          by_cases h5 : mime = str "application/vnd.google-apps.drawing"
          · rw [if_pos h5]
            exact extract_build_drawing hw hnee
          · rw [if_neg h5]
            by_cases h6 : mime = str "application/vnd.google-apps.folder"
            · rw [if_pos h6]
              exact extract_build_folder hw
            · rw [if_neg h6]
              exact extract_build_fileview hw hnee

/-- C8 witness: the amended roundtrip at the concrete id abc123 and the
document template. -/
theorem c8_build_link_extract_roundtrip_witness :
    ExtractFileID (BuildFileLink (str "abc123") (str "application/vnd.google-apps.document")) =
      .ok (str "abc123") :=
  c8_build_link_extract_roundtrip (str "abc123") (str "application/vnd.google-apps.document")
    (by decide) (by decide) (by decide)

/-- A markdown emphasis marker, the class [\*_]. -/
def isMarker (c : Char) : Bool := c = '*' || c = '_'

/-- The URL-continuation character class [^\s\*_\n] of the multiline-URL
patterns (\n is already inside RE2's \s). -/
def urlChar (c : Char) : Bool := !(isGoSpace c || c = '*' || c = '_')

/-- Literal match of the alternation https://(drive|docs).google.com/ at the
head of the string, returning the matched literal and the remainder. -/
def stripUrlStart (l : Str) : Option (Str × Str) :=
  if beginsWith l (str "https://drive.google.com/") then
    some (str "https://drive.google.com/", l.drop 25)
  else if beginsWith l (str "https://docs.google.com/") then
    some (str "https://docs.google.com/", l.drop 24)
  else none

/-- Greedy [\*_]? — at most one marker character. -/
def takeOptMarker : Str → Str × Str
  | [] => ([], [])
  | c :: rest => if isMarker c then ([c], rest) else ([], c :: rest)

/-- Greedy [\*_]* — a whole run of marker characters. -/
def takeManyMarkers (l : Str) : Str × Str :=
  (l.takeWhile isMarker, l.dropWhile isMarker)

/-- Match of the URL-continuation pattern anchored at the head of the string,
parameterized by the marker rule ([\*_]? in the discovery pattern, [\*_]* in
the utils pattern): the
Google URL with a non-empty continuation-class tail (group 1), optional
markers, a whitespace run that must contain a newline (the RE2 \s*\n\s*),
optional markers, a non-empty continuation fragment (group 2), optional
trailing markers. Returns (group1, group2, remainder after the match). -/
def tryJoinWith (markers : Str → Str × Str) (l : Str) : Option (Str × Str × Str) :=
  match stripUrlStart l with
  | none => none
  | some (dom, r1) =>
    let g1tail := r1.takeWhile urlChar
    if g1tail = [] then none
    else
      let r2 := r1.dropWhile urlChar
      let r3 := (markers r2).2
      let w := r3.takeWhile isGoSpace
      let r4 := r3.dropWhile isGoSpace
      if '\n' ∈ w then
        let r5 := (markers r4).2
        let g2 := r5.takeWhile urlChar
        if g2 = [] then none
        else
          let r6 := r5.dropWhile urlChar
          let r7 := (markers r6).2
          some (dom ++ g1tail, g2, r7)
      else none

/-- The urlContinuationPattern of the discovery package (single optional
marker on each side of the break). -/
def tryJoinDisc : Str → Option (Str × Str × Str) := tryJoinWith takeOptMarker

/-- The urlContinuationPattern of url.go (marker runs on each side). -/
def tryJoinUtils : Str → Option (Str × Str × Str) := tryJoinWith takeManyMarkers

theorem beginsWith_decomp {l pre : Str} (h : beginsWith l pre = true) :
    l = pre ++ l.drop pre.length := by
  induction pre generalizing l with
  | nil => simp
  | cons d ds ih =>
    match l with
    | [] => simp [beginsWith] at h
    | c :: cs =>
      rw [beginsWith, Bool.and_eq_true, decide_eq_true_eq] at h
      obtain ⟨rfl, h2⟩ := h
      simpa using ih h2

theorem stripUrlStart_decomp {l dom r1 : Str} (h : stripUrlStart l = some (dom, r1)) :
    l = dom ++ r1 ∧ dom ≠ [] := by
  rw [stripUrlStart] at h
  by_cases h1 : beginsWith l (str "https://drive.google.com/") = true
  · rw [if_pos h1] at h
    injection h with h
    injection h with hd hr
    subst hd
    subst hr
    exact ⟨beginsWith_decomp h1, by decide⟩
  · rw [if_neg h1] at h
    by_cases h2 : beginsWith l (str "https://docs.google.com/") = true
    · rw [if_pos h2] at h
      injection h with h
      injection h with hd hr
      subst hd
      subst hr
      exact ⟨beginsWith_decomp h2, by decide⟩
    · rw [if_neg h2] at h
      exact absurd h (by simp)

/-- A marker rule is consuming when whatever it strips is a prefix it returns
nothing else: the input is always marker-part ++ remainder, and here we only
need the length bound. -/
def markerRule (markers : Str → Str × Str) : Prop :=
  ∀ s : Str, (markers s).2.length ≤ s.length

theorem takeOptMarker_rule : markerRule takeOptMarker := by
  intro s
  match s with
  | [] => simp [takeOptMarker]
  | c :: rest =>
    rw [takeOptMarker]
    by_cases hc : isMarker c = true <;> simp [hc]

theorem dropWhile_length_le (p : Char → Bool) (l : Str) :
    (l.dropWhile p).length ≤ l.length := by
  induction l with
  | nil => simp
  | cons c rest ih =>
    rw [List.dropWhile_cons]
    by_cases hc : p c = true <;> simp [hc] <;> omega

theorem takeManyMarkers_rule : markerRule takeManyMarkers := by
  intro s
  simp only [takeManyMarkers]
  exact dropWhile_length_le _ _

theorem tryJoinWith_sound {markers : Str → Str × Str} (hm : markerRule markers)
    {l g1 g2 rest : Str} (h : tryJoinWith markers l = some (g1, g2, rest)) :
    g1.length + g2.length + rest.length < l.length := by
  rw [tryJoinWith] at h
  match hstrip : stripUrlStart l with
  | none => rw [hstrip] at h; exact absurd h (by simp)
  | some (dom, r1) =>
    rw [hstrip] at h
    obtain ⟨hl, hdom⟩ := stripUrlStart_decomp hstrip
    simp only [] at h
    by_cases hg1 : r1.takeWhile urlChar = []
    · rw [if_pos hg1] at h
      exact absurd h (by simp)
    · rw [if_neg hg1] at h
      set r2 := r1.dropWhile urlChar with hr2
      set r3 := (markers r2).2 with hr3
      set w := r3.takeWhile isGoSpace with hw
      set r4 := r3.dropWhile isGoSpace with hr4
      by_cases hnl : ('\n' : Char) ∈ w
      · rw [if_pos hnl] at h
        set r5 := (markers r4).2 with hr5
        by_cases hg2 : r5.takeWhile urlChar = []
        · rw [if_pos hg2] at h
          exact absurd h (by simp)
        · rw [if_neg hg2] at h
          set r6 := r5.dropWhile urlChar with hr6
          injection h with h
          injection h with h1 h23
          injection h23 with h2 h3
          subst h1
          subst h2
          subst h3
          -- length bookkeeping along the decompositions
          have e1 : l.length = dom.length + r1.length := by rw [hl]; simp
          have e2 : (r1.takeWhile urlChar).length + r2.length = r1.length := by
            rw [hr2, ← List.length_append, List.takeWhile_append_dropWhile]
          have e3 : r3.length ≤ r2.length := hm r2
          have e4 : w.length + r4.length = r3.length := by
            rw [hw, hr4, ← List.length_append, List.takeWhile_append_dropWhile]
          have e5 : r5.length ≤ r4.length := hm r4
          have e6 : (r5.takeWhile urlChar).length + r6.length = r5.length := by
            rw [hr6, ← List.length_append, List.takeWhile_append_dropWhile]
          have e7 : (markers r6).2.length ≤ r6.length := hm r6
          have ew : 0 < w.length := by
            refine List.length_pos.mpr fun hwnil => ?_
            rw [hwnil] at hnl
            simp at hnl
          simp only [List.length_append]
          omega
      · rw [if_neg hnl] at h
        exact absurd h (by simp)

/-- One regexp.ReplaceAllString pass of the URL-continuation pattern: scan
left to right, replace each non-overlapping match by group1 ++ group2 and
continue after it. Fuelled by the string length, which suffices because every
step consumes at least one character. -/
def joinPassFuel (markers : Str → Str × Str) : Nat → Str → Str
  | _, [] => []
  | 0, l => l
  | fuel + 1, l@(c :: restp) =>
    match tryJoinWith markers l with
    | some (g1, g2, rest) => g1 ++ g2 ++ joinPassFuel markers fuel rest
    | none => c :: joinPassFuel markers fuel restp

def joinPassDisc (l : Str) : Str := joinPassFuel takeOptMarker l.length l

def joinPassUtils (l : Str) : Str := joinPassFuel takeManyMarkers l.length l

/-- Whether any position of the string still matches the URL-continuation
pattern (with the discovery marker rule). -/
def hasJoinDisc : Str → Bool
  | [] => false
  | l@(_ :: restp) => (tryJoinDisc l).isSome || hasJoinDisc restp

theorem joinPassFuel_length_le {markers : Str → Str × Str} (hm : markerRule markers)
    (fuel : Nat) (l : Str) (hf : l.length ≤ fuel) :
    (joinPassFuel markers fuel l).length ≤ l.length := by
  induction fuel generalizing l with
  | zero =>
    have : l = [] := List.length_eq_zero.mp (by omega)
    subst this
    simp [joinPassFuel]
  | succ n ih =>
    match l with
    | [] => simp [joinPassFuel]
    | c :: restp =>
      rw [joinPassFuel]
      match hj : tryJoinWith markers (c :: restp) with
      | some (g1, g2, rest) =>
        have hs := tryJoinWith_sound hm hj
        have hrest := ih rest (by simp only [List.length_cons] at hs hf; omega)
        simp only [hj, List.length_append, List.length_cons] at hs ⊢
        omega
      | none =>
        have := ih restp (by simp only [List.length_cons] at hf; omega)
        simp only [hj, List.length_cons]
        omega

theorem joinPassFuel_no_join (fuel : Nat) (l : Str) (hf : l.length ≤ fuel)
    (h : hasJoinDisc l = false) : joinPassFuel takeOptMarker fuel l = l := by
  induction fuel generalizing l with
  | zero =>
    have : l = [] := List.length_eq_zero.mp (by omega)
    subst this
    simp [joinPassFuel]
  | succ n ih =>
    match l with
    | [] => simp [joinPassFuel]
    | c :: restp =>
      rw [hasJoinDisc, Bool.or_eq_false_iff] at h
      obtain ⟨h1, h2⟩ := h
      rw [tryJoinDisc] at h1
      rw [joinPassFuel]
      match hj : tryJoinWith takeOptMarker (c :: restp) with
      | some _ =>
        rw [hj] at h1
        simp at h1
      | none =>
        simp only [hj]
        rw [ih restp (by simp only [List.length_cons] at hf; omega) h2]

theorem joinPassFuel_join_lt (fuel : Nat) (l : Str) (hf : l.length ≤ fuel)
    (h : hasJoinDisc l = true) :
    (joinPassFuel takeOptMarker fuel l).length < l.length := by
  induction fuel generalizing l with
  | zero =>
    have : l = [] := List.length_eq_zero.mp (by omega)
    subst this
    simp [hasJoinDisc] at h
  | succ n ih =>
    match l with
    | [] => simp [hasJoinDisc] at h
    | c :: restp =>
      rw [hasJoinDisc, Bool.or_eq_true] at h
      rw [joinPassFuel]
      match hj : tryJoinWith takeOptMarker (c :: restp) with
      | some (g1, g2, rest) =>
        have hs := tryJoinWith_sound takeOptMarker_rule hj
        have hrest := joinPassFuel_length_le takeOptMarker_rule n rest
          (by simp only [List.length_cons] at hs hf; omega)
        simp only [hj, List.length_append, List.length_cons] at hs ⊢
        omega
      | none =>
        simp only [hj]
        rcases h with h | h
        · rw [tryJoinDisc, hj] at h
          simp at h
        · have := ih restp (by simp only [List.length_cons] at hf; omega) h
          simp only [List.length_cons]
          omega

theorem joinPassDisc_length_le (l : Str) : (joinPassDisc l).length ≤ l.length :=
  joinPassFuel_length_le takeOptMarker_rule l.length l le_rfl

theorem joinPassDisc_no_join {l : Str} (h : hasJoinDisc l = false) :
    joinPassDisc l = l :=
  joinPassFuel_no_join l.length l le_rfl h

theorem joinPassDisc_join_lt {l : Str} (h : hasJoinDisc l = true) :
    (joinPassDisc l).length < l.length :=
  joinPassFuel_join_lt l.length l le_rfl h

/-- The loop of the discovery-package normalizeMultilineURLs: apply the
replacement pass until it changes nothing. Fuelled by the string length,
which suffices because every changing pass strictly shortens the string. -/
def normalizeLoopFuel : Nat → Str → Str
  | 0, content => content
  | fuel + 1, content =>
    let normalized := joinPassDisc content
    if normalized = content then content else normalizeLoopFuel fuel normalized

/-- discovery normalizeMultilineURLs (the loop-until-fixed-point variant). -/
def normalizeMultilineURLsDisc (content : Str) : Str :=
  normalizeLoopFuel content.length content

theorem normalizeLoopFuel_fix (fuel : Nat) (content : Str)
    (hf : content.length ≤ fuel) :
    joinPassDisc (normalizeLoopFuel fuel content) = normalizeLoopFuel fuel content := by
  induction fuel generalizing content with
  | zero =>
    have : content = [] := List.length_eq_zero.mp (by omega)
    subst this
    simp [normalizeLoopFuel]
    decide
  | succ n ih =>
    rw [normalizeLoopFuel]
    by_cases hfix : joinPassDisc content = content
    · simp only [hfix, if_pos rfl]
      exact hfix
    · rw [if_neg hfix]
      refine ih (joinPassDisc content) ?_
      have hj : hasJoinDisc content = true := by
        by_contra hcon
        exact hfix (joinPassDisc_no_join (Bool.not_eq_true _ ▸ hcon))
      have := joinPassDisc_join_lt hj
      omega

theorem normalizeLoopFuel_of_fix (fuel : Nat) {content : Str}
    (h : joinPassDisc content = content) :
    normalizeLoopFuel fuel content = content := by
  cases fuel with
  | zero => rfl
  | succ n => simp [normalizeLoopFuel, h]

/-- C4 amended, proved for the discovery-package normalizeMultilineURLs (the
variant with the replace-until-unchanged loop): the result has no remaining
occurrence of an allowed-domain URL fragment, soft line break and
continuation fragment, and re-applying the function changes nothing — even
when a URL is broken across three or more lines. -/
theorem c4_discovery_normalize_fixed_point (x : Str) :
    hasJoinDisc (normalizeMultilineURLsDisc x) = false ∧
      normalizeMultilineURLsDisc (normalizeMultilineURLsDisc x) =
        normalizeMultilineURLsDisc x := by
  have hfix : joinPassDisc (normalizeMultilineURLsDisc x) = normalizeMultilineURLsDisc x :=
    normalizeLoopFuel_fix x.length x le_rfl
  constructor
  · by_contra h
    rw [Bool.not_eq_false] at h
    have := joinPassDisc_join_lt h
    rw [hfix] at this
    omega
  · exact normalizeLoopFuel_of_fix _ hfix

/-- One pass of strings.ReplaceAll(s, "\\" ++ x, x): unescape one escaped
character within a URL. -/
def replaceEsc (x : Char) : Str → Str
  | [] => []
  | [c] => [c]
  | c1 :: c2 :: rest =>
    if c1 = '\\' && c2 = x then x :: replaceEsc x rest
    else c1 :: replaceEsc x (c2 :: rest)

/-- The unescape body of url.go NormalizeMultilineURLs applied to one matched
URL: strip backslash escapes of _, *, -, [ and ] in that order. -/
def unescapeUrl (u : Str) : Str :=
  replaceEsc ']' (replaceEsc '[' (replaceEsc '-' (replaceEsc '*' (replaceEsc '_' u))))

/-- regexp.ReplaceAllStringFunc of the escapedCharsPattern
(https://(drive|docs).google.com/[^\s\n]*): find each URL span and unescape
it. Fuelled by the string length, which suffices because every step consumes
at least one character. -/
def escapeSpanFuel : Nat → Str → Str
  | _, [] => []
  | 0, l => l
  | fuel + 1, l@(c :: restp) =>
    match stripUrlStart l with
    | some (dom, r1) =>
      let span := r1.takeWhile (fun c => !isGoSpace c)
      let rest := r1.dropWhile (fun c => !isGoSpace c)
      unescapeUrl (dom ++ span) ++ escapeSpanFuel fuel rest
    | none => c :: escapeSpanFuel fuel restp

/-- url.go NormalizeMultilineURLs: one single pass of the line-join
replacement (no loop), then the URL unescape pass. -/
def NormalizeMultilineURLs (content : Str) : Str :=
  escapeSpanFuel content.length (joinPassUtils content)

example : NormalizeMultilineURLs (str "https://docs.google.com/document/d/abc\ndef/edit")
    = str "https://docs.google.com/document/d/abcdef/edit" := by decide
example : NormalizeMultilineURLs (str "https://docs.google.com/document/d/abc\\_def/edit")
    = str "https://docs.google.com/document/d/abc_def/edit" := by decide
example : NormalizeMultilineURLs (str "https://docs.google.com/document/d/abc  \n  def/edit")
    = str "https://docs.google.com/document/d/abcdef/edit" := by decide
example : NormalizeMultilineURLs (str "no urls here") = str "no urls here" := by decide

/-- C4 counterexample: url.go NormalizeMultilineURLs performs only one
replacement pass, so a URL broken across three lines keeps a joinable
fragment pair after normalization, and applying the function a second time
changes the result. -/
theorem c4_utils_single_pass_not_fixed_point :
    NormalizeMultilineURLs (str "https://docs.google.com/document/d/ab\ncd\nef/edit")
        = str "https://docs.google.com/document/d/abcd\nef/edit" ∧
      NormalizeMultilineURLs
          (NormalizeMultilineURLs (str "https://docs.google.com/document/d/ab\ncd\nef/edit")) ≠
        NormalizeMultilineURLs (str "https://docs.google.com/document/d/ab\ncd\nef/edit") := by
  constructor
  · decide
  · decide

/-- The per-element loop of the discovery-package extractFileID (it has no
Google-Forms d/e lookahead, unlike the utils version). -/
def scanPartsDisc : List Str → Option Str
  | p :: e :: rest =>
    if p = str "d" || p = str "folders" then some e
    else scanPartsDisc (e :: rest)
  | _ => none

/-- discovery-package extractFileID. -/
def extractFileIDDisc (urlStr : Str) : Except ExtractErr Str :=
  let u := urlParse urlStr
  if !containsSub u.host (str "drive.google.com") &&
      !containsSub u.host (str "docs.google.com") then
    .error .notDrive
  else
    match scanPartsDisc (splitOnChar '/' u.path) with
    | some id => .ok id
    | none =>
      let qid := queryGet u.rawQuery (str "id")
      if qid ≠ [] then .ok qid
      else
        match findDriveID urlStr with
        | some m => .ok m
        | none => .error .noID

/-- discovery-package buildFileLink (its forms template is /forms/d/id/edit,
unlike the utils version). -/
def buildFileLinkDisc (fileID mimeType : Str) : Str :=
  if mimeType = str "application/vnd.google-apps.document" then
    str "https://docs.google.com/document/d/" ++ fileID ++ str "/edit"
  else if mimeType = str "application/vnd.google-apps.spreadsheet" then
    str "https://docs.google.com/spreadsheets/d/" ++ fileID ++ str "/edit"
  else if mimeType = str "application/vnd.google-apps.presentation" then
    str "https://docs.google.com/presentation/d/" ++ fileID ++ str "/edit"
  else if mimeType = str "application/vnd.google-apps.form" then
    str "https://docs.google.com/forms/d/" ++ fileID ++ str "/edit"
  else if mimeType = str "application/vnd.google-apps.drawing" then
    str "https://docs.google.com/drawings/d/" ++ fileID ++ str "/edit"
  else if mimeType = str "application/vnd.google-apps.folder" then
    str "https://drive.google.com/drive/folders/" ++ fileID
  else
    str "https://drive.google.com/file/d/" ++ fileID ++ str "/view"

/-- The Google Drive folder MIME type. -/
def folderMime : Str := str "application/vnd.google-apps.folder"

/-- Drive file metadata as read by the Discoverer (Fields id, name, mimeType). -/
structure DriveFile where
  id : Str
  name : Str
  mimeType : Str
deriving DecidableEq, Repr

/-- A googleapi error code, or a non-API error. -/
inductive GErr
  | api (code : Nat)
  | other
deriving DecidableEq, Repr

/-- discovery determineErrorStatus. -/
def determineErrorStatus : GErr → Str
  | .api 404 => str "deleted"
  | .api 403 => str "permission_denied"
  | .api 400 => str "invalid"
  | .api _ => str "error"
  | .other => str "error"

/-- csv.DiscoveryRecord as populated by the Discoverer. -/
structure DiscoveryRecord where
  link : Str
  title : Str
  status : Str
deriving DecidableEq, Repr

/-- Observable remote effects of a discovery run: a metadata fetch, a folder
listing, or an invocation of extractLinksFromDocument (tagged with the depth
of the visit that invoked it). -/
inductive DEvent
  | fetchMeta (id : Str)
  | listChildren (id : Str)
  | extractCall (id : Str) (depth : Nat)
deriving DecidableEq, Repr

/-- The remote store as the Discoverer sees it. The bounded-backoff retry
executors are collapsed (retrying a deterministic call returns the same
outcome), and the per-page listing loop is collapsed into the full child
list; export plus read of a document's content is one lookup, with failure as
none. -/
structure DiscEnv where
  maxDepth : Nat
  meta : Str → Except GErr DriveFile
  children : Str → Except GErr (List DriveFile)
  docExport : Str → Option Str
  pdfExport : Str → Option Str

/-- The Discoverer's mutex-guarded state: seen IDs and the id→depth map. -/
structure DState where
  seen : List Str
  depth : List (Str × Nat)
deriving DecidableEq, Repr

/-- regexp FindAllString for the linkPattern
https://(drive|docs).google.com/[^\s\)]+: all non-overlapping leftmost
matches. Fuelled by the string length, which suffices because every step
consumes at least one character. -/
def findUrlsFuel : Nat → Str → List Str
  | _, [] => []
  | 0, _ => []
  | fuel + 1, l@(_ :: restp) =>
    match stripUrlStart l with
    | some (dom, r1) =>
      let tail := r1.takeWhile (fun c => !(isGoSpace c || c = ')'))
      if tail = [] then findUrlsFuel fuel restp
      else (dom ++ tail) :: findUrlsFuel fuel (r1.dropWhile (fun c => !(isGoSpace c || c = ')')))
    | none => findUrlsFuel fuel restp

def findUrls (l : Str) : List Str := findUrlsFuel l.length l

/-- discovery extractLinksFromDocument: PDFs via the copy→export→delete
transaction, Google Workspace documents (except folders) via markdown
export, anything else yields nothing; then line-join normalization, URL
matching, and the best-effort filter against already-seen and self ids. -/
def extractLinksFromDocument (env : DiscEnv) (seen : List Str)
    (fileID mimeType : Str) : List Str :=
  let content : Option Str :=
    if mimeType = str "application/pdf" then env.pdfExport fileID
    else if beginsWith mimeType (str "application/vnd.google-apps.") then
      if mimeType = folderMime then none else env.docExport fileID
    else none
  match content with
  | none => []
  | some content =>
    let normalized := normalizeMultilineURLsDisc content
    (findUrls normalized).filter fun u =>
      match extractFileIDDisc u with
      | .error _ => false
      | .ok id => !seen.contains id && !(id = fileID)

/-- One call frame of the mutually recursive discovery walk:
discoverFromFileIDWithURL, discoverFolder, the loop over extracted links,
and the loop over a folder's children. -/
inductive DCall
  | visit (fileID originalURL : Str) (currentDepth : Nat)
  | folder (folderID : Str)
  | links (urls : List Str) (depth : Nat)
  | childFiles (files : List DriveFile)

/-- The discovery walk (discoverFromFileIDWithURL / discoverFolder and their
loops), fuelled for termination; each frame returns the updated state, the
records it emitted, and its remote-effect trace. -/
def disc (env : DiscEnv) : Nat → DCall → DState → DState × List DiscoveryRecord × List DEvent
  | 0, _, st => (st, [], [])
  | fuel + 1, .visit fileID originalURL currentDepth, st =>
    if st.seen.contains fileID then (st, [], [])
    else
      let st1 : DState :=
        { seen := fileID :: st.seen, depth := (fileID, currentDepth) :: st.depth }
      match env.meta fileID with
      | .error e =>
        let link := if originalURL = [] then buildFileLinkDisc fileID [] else originalURL
        (st1, [⟨link, fileID, determineErrorStatus e⟩], [.fetchMeta fileID])
      | .ok file =>
        if file.mimeType = folderMime then
          let r := disc env fuel (.folder fileID) st1
          (r.1, r.2.1, .fetchMeta fileID :: r.2.2)
        else
          let link := if originalURL = [] then buildFileLinkDisc fileID file.mimeType
            else originalURL
          let selfRec : DiscoveryRecord := ⟨link, file.name, str "available"⟩
          if currentDepth < env.maxDepth then
            let linkedURLs := extractLinksFromDocument env st1.seen fileID file.mimeType
            let r := disc env fuel (.links linkedURLs (currentDepth + 1)) st1
            (r.1, selfRec :: r.2.1,
              .fetchMeta fileID :: .extractCall fileID currentDepth :: r.2.2)
          else
            (st1, [selfRec], [.fetchMeta fileID])
  | fuel + 1, .folder folderID, st =>
    if st.seen.contains folderID then (st, [], [])
    else
      let st1 : DState := { st with seen := folderID :: st.seen }
      match env.children folderID with
      | .error _ => (st1, [], [.listChildren folderID])
      | .ok files =>
        let r := disc env fuel (.childFiles files) st1
        (r.1, r.2.1, .listChildren folderID :: r.2.2)
  | fuel + 1, .links urls depth, st =>
    match urls with
    | [] => (st, [], [])
    | url :: rest =>
      match extractFileIDDisc url with
      | .error _ => disc env fuel (.links rest depth) st
      | .ok linkedID =>
        let r1 := disc env fuel (.visit linkedID url depth) st
        let r2 := disc env fuel (.links rest depth) r1.1
        (r2.1, r1.2.1 ++ r2.2.1, r1.2.2 ++ r2.2.2)
  | fuel + 1, .childFiles files, st =>
    match files with
    | [] => (st, [], [])
    | f :: rest =>
      if st.seen.contains f.id then disc env fuel (.childFiles rest) st
      else
        let st1 : DState := { st with seen := f.id :: st.seen }
        if f.mimeType = folderMime then
          let r1 := disc env fuel (.folder f.id) st1
          let r2 := disc env fuel (.childFiles rest) r1.1
          (r2.1, r1.2.1 ++ r2.2.1, r1.2.2 ++ r2.2.2)
        else
          let rec1 : DiscoveryRecord :=
            ⟨buildFileLinkDisc f.id f.mimeType, f.name, str "available"⟩
          let r2 := disc env fuel (.childFiles rest) st1
          (r2.1, rec1 :: r2.2.1, r2.2.2)

/-- discovery discoverFromFileIDWithURL. -/
def discoverFromFileIDWithURL (env : DiscEnv) (fuel : Nat) (st : DState)
    (fileID originalURL : Str) (currentDepth : Nat) :
    DState × List DiscoveryRecord × List DEvent :=
  disc env fuel (.visit fileID originalURL currentDepth) st

/-- discovery discoverFolder. -/
def discoverFolder (env : DiscEnv) (fuel : Nat) (st : DState) (folderID : Str) :
    DState × List DiscoveryRecord × List DEvent :=
  disc env fuel (.folder folderID) st

/-- discovery DiscoverFromURLs: the seed loop (invalid seeds become
status=invalid records with the literal URL and the INVALID_URL title). -/
def discoverFromURLs (env : DiscEnv) (fuel : Nat) (st : DState) :
    List Str → DState × List DiscoveryRecord × List DEvent
  | [] => (st, [], [])
  | u :: rest =>
    match extractFileIDDisc u with
    | .error _ =>
      let r := discoverFromURLs env fuel st rest
      (r.1, ⟨u, str "INVALID_URL", str "invalid"⟩ :: r.2.1, r.2.2)
    | .ok fileID =>
      let r1 := disc env fuel (.visit fileID u 0) st
      let r2 := discoverFromURLs env fuel r1.1 rest
      (r2.1, r1.2.1 ++ r2.2.1, r1.2.2 ++ r2.2.2)

/-- Every extractLinksFromDocument invocation in a discovery trace happens at
a depth strictly below maxDepth, whatever the call frame. -/
theorem disc_extract_below_max (env : DiscEnv) (fuel : Nat) (call : DCall) (st : DState) :
    ∀ id d, DEvent.extractCall id d ∈ (disc env fuel call st).2.2 → d < env.maxDepth := by
  induction fuel generalizing call st with
  | zero =>
    intro id d hmem
    simp [disc] at hmem
  | succ n ih =>
    intro id d hmem
    match call with
    | .visit fileID originalURL currentDepth =>
      rw [disc] at hmem
      split at hmem
      · simp at hmem
      · split at hmem
        · simp at hmem
        · split at hmem
          · simp only [List.mem_cons] at hmem
            rcases hmem with h | h
            · exact absurd h (by simp)
            · exact ih _ _ id d h
          · split at hmem
            · split at hmem
              · next hdepth =>
                simp only [List.mem_cons] at hmem
                rcases hmem with h | h
                · exact absurd h (by simp)
                · rcases h with h | h
                  · injection h with h1 h2
                    subst h2
                    exact hdepth
                  · exact ih _ _ id d h
              · simp at hmem
            · split at hmem
              · next hdepth =>
                simp only [List.mem_cons] at hmem
                rcases hmem with h | h
                · exact absurd h (by simp)
                · rcases h with h | h
                  · injection h with h1 h2
                    subst h2
                    exact hdepth
                  · exact ih _ _ id d h
              · simp at hmem
    | .folder folderID =>
      rw [disc] at hmem
      split at hmem
      · simp at hmem
      · split at hmem
        · simp at hmem
        · simp only [List.mem_cons] at hmem
          rcases hmem with h | h
          · exact absurd h (by simp)
          · exact ih _ _ id d h
    | .links urls depth =>
      match urls with
      | [] => simp [disc] at hmem
      | url :: rest =>
        simp only [disc] at hmem
        split at hmem
        · exact ih _ _ id d hmem
        · simp only [List.mem_append] at hmem
          rcases hmem with h | h
          · exact ih _ _ id d h
          · exact ih _ _ id d h
    | .childFiles files =>
      match files with
      | [] => simp [disc] at hmem
      | f :: rest =>
        simp only [disc] at hmem
        split at hmem
        · exact ih _ _ id d hmem
        · split at hmem
          · simp only [List.mem_append] at hmem
            rcases hmem with h | h
            · exact ih _ _ id d h
            · exact ih _ _ id d h
          · exact ih _ _ id d hmem

/-- C3: for every document visited by discoverFromFileIDWithURL, link
extraction is invoked only when the visit depth is strictly below maxDepth;
in particular no extraction ever happens at depth = maxDepth, even when the
document's content contains allowed-domain links. -/
theorem c3_no_extraction_at_max_depth (env : DiscEnv) (fuel : Nat) (st : DState)
    (fileID originalURL : Str) (currentDepth : Nat) (id : Str) (d : Nat)
    (hmem : DEvent.extractCall id d ∈
      (discoverFromFileIDWithURL env fuel st fileID originalURL currentDepth).2.2) :
    d < env.maxDepth :=
  disc_extract_below_max env fuel _ st id d hmem

/-- A one-document environment with maxDepth 1 for the C3 witness: the
document is visited at depth 0 and extraction does run there. -/
def c3Env : DiscEnv :=
  { maxDepth := 1
    meta := fun id =>
      if id = str "docA" then
        .ok ⟨str "docA", str "Doc A", str "application/vnd.google-apps.document"⟩
      else .error (.api 404)
    children := fun _ => .ok []
    docExport := fun _ => some []
    pdfExport := fun _ => none }

/-- C3 witness: the theorem applied to a concrete run whose trace contains an
extraction event at depth 0, below maxDepth = 1. -/
theorem c3_no_extraction_at_max_depth_witness : (0 : Nat) < c3Env.maxDepth :=
  c3_no_extraction_at_max_depth c3Env 5 ⟨[], []⟩ (str "docA") [] 0 (str "docA") 0
    (by decide)

/-- A folder with a single child document, for exercising folder traversal. -/
def c1Env : DiscEnv :=
  { maxDepth := 3
    meta := fun id =>
      if id = str "folderA" then .ok ⟨str "folderA", str "Folder A", folderMime⟩
      else if id = str "childB" then
        .ok ⟨str "childB", str "Child B", str "application/vnd.google-apps.document"⟩
      else .error (.api 404)
    children := fun id =>
      if id = str "folderA" then
        .ok [⟨str "childB", str "Child B", str "application/vnd.google-apps.document"⟩]
      else .ok []
    docExport := fun _ => some []
    pdfExport := fun _ => none }

/-- C1: discovering a folder seed emits no record at all and never touches
the folder's child — discoverFromFileIDWithURL marks the folder seen and only
then calls discoverFolder, whose own already-seen check therefore returns
immediately, so the children are never listed (the trace holds exactly the
folder's metadata fetch, with no listChildren and no fetch of childB). The
child document is reachable yet visited zero times, not exactly once. -/
theorem c1_folder_children_never_listed :
    (discoverFromURLs c1Env 10 ⟨[], []⟩
        [str "https://drive.google.com/drive/folders/folderA"]).2.1 = [] ∧
      (discoverFromURLs c1Env 10 ⟨[], []⟩
        [str "https://drive.google.com/drive/folders/folderA"]).2.2 =
        [DEvent.fetchMeta (str "folderA")] := by
  constructor
  · decide
  · decide

/-- csv.ConversionRecord. -/
structure ConversionRecord where
  link : Str
  title : Str
  tags : Str
  frag1 : Str
  frag2 : Str
  frag3 : Str
  frag4 : Str
  frag5 : Str
deriving DecidableEq, Repr

/-- csv GetFragments. -/
def getFragments (r : ConversionRecord) : List Str :=
  [r.frag1, r.frag2, r.frag3, r.frag4, r.frag5]

/-- Go strings.TrimSpace (ASCII whitespace model of unicode.IsSpace). -/
def isSpaceGo (c : Char) : Bool :=
  c = ' ' || c = '\t' || c = '\n' || c = '\x0b' || c = '\x0c' || c = '\r'

def trimSpace (l : Str) : Str :=
  ((l.dropWhile isSpaceGo).reverse.dropWhile isSpaceGo).reverse

/-- csv GetTagsList: empty tags give nothing; otherwise split on comma, trim
each entry and drop empties. -/
def getTagsList (r : ConversionRecord) : List Str :=
  if r.tags = [] then []
  else ((splitOnChar ',' r.tags).map trimSpace).filter fun t => t ≠ []

/-- Model of conversion.Convert over an abstract per-record outcome
(convertRecord's result: none = success, some msg = error). The worker pool
(fixed workers draining a closed pre-filled queue) is collapsed: with at
least one worker every job is taken exactly once by some worker and the
multiset of outcomes is schedule-independent; with zero workers wg.Wait
returns immediately and nothing is attempted. Returns the aggregate error
(the "conversion had N errors" count) and the list of attempted records. -/
def Convert (outcome : ConversionRecord → Option Str)
    (records : List ConversionRecord) (workers : Nat) :
    Option Nat × List ConversionRecord :=
  let attempted := if workers = 0 then [] else records
  let errors := attempted.filter fun r => (outcome r).isSome
  (if errors.length > 0 then some errors.length else none, attempted)

def c6rec : ConversionRecord :=
  ⟨str "https://docs.google.com/document/d/abc123/edit", str "Doc", [], [], [], [], [], []⟩

/-- C6 counterexample: with workers = 0 the pool has no workers, the wait
group finishes immediately, and Convert returns nil having attempted no
record at all — "attempts every record" fails as universally stated. -/
theorem c6_zero_workers_attempt_nothing :
    (Convert (fun _ => some (str "boom")) [c6rec] 0).2 = [] ∧
      ([] : List ConversionRecord) ≠ [c6rec] ∧
      (Convert (fun _ => some (str "boom")) [c6rec] 0).1 = none := by
  refine ⟨?_, ?_, ?_⟩
  · decide
  · decide
  · decide

/-- C6 amended: with at least one worker, Convert attempts every record
(fail-at-end, not fail-fast) and reports an aggregate error exactly when at
least one record's conversion returned an error; when every record succeeds
it returns nil. -/
theorem c6_fail_at_end_aggregate (outcome : ConversionRecord → Option Str)
    (records : List ConversionRecord) (workers : Nat) (hw : 1 ≤ workers) :
    (Convert outcome records workers).2 = records ∧
      ((Convert outcome records workers).1 ≠ none ↔
        ∃ r ∈ records, (outcome r).isSome = true) := by
  have hw0 : workers ≠ 0 := by omega
  simp only [Convert, hw0, if_false]
  constructor
  · trivial
  · constructor
    · intro h
      by_cases hlen : (records.filter fun r => (outcome r).isSome).length > 0
      · have : records.filter (fun r => (outcome r).isSome) ≠ [] := by
          intro hc
          rw [hc] at hlen
          simp at hlen
        match hm : records.filter fun r => (outcome r).isSome with
        | [] => exact absurd hm this
        | r :: rest =>
          have hr : r ∈ records.filter fun r => (outcome r).isSome := by
            rw [hm]; simp
          have hrm := List.mem_filter.mp hr
          exact ⟨r, hrm.1, hrm.2⟩
      · rw [if_neg hlen] at h
        exact absurd rfl h
    · rintro ⟨r, hr, hout⟩ h
      have : r ∈ records.filter fun r => (outcome r).isSome :=
        List.mem_filter.mpr ⟨hr, hout⟩
      have hpos : (records.filter fun r => (outcome r).isSome).length > 0 :=
        List.length_pos.mpr fun hc => by rw [hc] at this; simp at this
      rw [if_pos hpos] at h
      simp at h

/-- C6 witness: the amended theorem at two workers and one failing record. -/
theorem c6_fail_at_end_aggregate_witness :
    (Convert (fun _ => some (str "x")) [c6rec] 2).2 = [c6rec] ∧
      ((Convert (fun _ => some (str "x")) [c6rec] 2).1 ≠ none ↔
        ∃ r ∈ [c6rec], ((fun (_ : ConversionRecord) => some (str "x")) r).isSome = true) :=
  c6_fail_at_end_aggregate _ _ 2 (by omega)

/-- The YAML characters that force quoting in escapeYAML and buildFrontmatter
(strings.ContainsAny cutset; codes 39, 123 and 125 are the single quote and
the curly braces). -/
def yamlSpecialChars : Str :=
  [':', '#', '@', '&', '*', '!', '|', '>', Char.ofNat 39, '"', '%', '[', ']',
    Char.ofNat 123, Char.ofNat 125]

/-- strings.ReplaceAll(v, one double quote, backslash double quote). -/
def escapeQuotes (v : Str) : Str :=
  (v.map fun c => if c = '"' then ['\\', '"'] else [c]).flatten

/-- conversion escapeYAML: quote (escaping inner quotes) when the value holds
a special character or starts with a dash. -/
def escapeYAML (s : Str) : Str :=
  if s.any (charIn yamlSpecialChars) || beginsWith s (str "-") then
    '"' :: (escapeQuotes s ++ ['"'])
  else s

/-- conversion generateFrontmatter; the SHA-256 digest
utils.CalculateStringHash is an external crypto primitive, abstracted as the
hashFn parameter. -/
def generateFrontmatter (hashFn : Str → Str) (record : ConversionRecord)
    (revisionHash content : Str) : Str :=
  str "---\n" ++
  (str "description: " ++ escapeYAML record.title ++ str "\n") ++
  str "editor: markdown\n" ++
  (str "hash-gdrive: " ++ escapeYAML revisionHash ++ str "\n") ++
  (str "hash-content: " ++ hashFn content ++ str "\n") ++
  str "published: true\n" ++
  (let tags := getTagsList record
   if tags.length > 0 then str "tags: " ++ List.intercalate (str ", ") tags ++ str "\n"
   else []) ++
  (str "title: " ++ escapeYAML record.title ++ str "\n") ++
  str "---\n"

/-- convertRecord's final file content: frontmatter, a blank line, the
rewritten body. -/
def convertFinalContent (hashFn : Str → Str) (record : ConversionRecord)
    (revisionHash contentStr : Str) : Str :=
  generateFrontmatter hashFn record revisionHash contentStr ++ str "\n" ++ contentStr

/-- strings.SplitN(line, colon, 2): the parts before and after the first
colon, or nothing when the line has no colon (SplitN then yields one part and
the parser skips the line). -/
def splitAtColon (line : Str) : Option (Str × Str) :=
  if (':' : Char) ∈ line then
    some (line.takeWhile (fun c => c ≠ ':'), (line.dropWhile (fun c => c ≠ ':')).drop 1)
  else none

/-- The frontmatter map: later writes of a key overwrite earlier ones. -/
def fmInsert (m : List (Str × Str)) (k v : Str) : List (Str × Str) :=
  match m with
  | [] => [(k, v)]
  | (k2, v2) :: rest => if k2 = k then (k, v) :: rest else (k2, v2) :: fmInsert rest k v

def fmGet (m : List (Str × Str)) (k : Str) : Option Str :=
  match m with
  | [] => none
  | (k2, v2) :: rest => if k2 = k then some v2 else fmGet rest k

/-- The per-line loop of sync parseFrontmatter: trim, skip empties, split at
the first colon, trim the key and the value, strip surrounding quotes. -/
def parseFMLines : List Str → List (Str × Str) → List (Str × Str)
  | [], m => m
  | line :: rest, m =>
    let line := trimSpace line
    if line = [] then parseFMLines rest m
    else
      match splitAtColon line with
      | none => parseFMLines rest m
      | some (k, v) =>
        parseFMLines rest (fmInsert m (trimSpace k) (trimChars (str "\"") (trimSpace v)))

/-- sync parseFrontmatter: require a leading marker line, locate the closing
marker, parse the lines between into a key-value map, return map and body. -/
def parseFrontmatter (content : Str) : Except Unit (List (Str × Str) × Str) :=
  if !beginsWith content (str "---\n") then .error ()
  else
    match findSubIdx (content.drop 4) (str "\n---\n") with
    | none => .error ()
    | some endIdx =>
      .ok (parseFMLines (splitOnChar '\n' ((content.drop 4).take endIdx)) [],
        content.drop (endIdx + 9))

/-- One ordered line of sync buildFrontmatter. -/
def buildFMLine (fm : List (Str × Str)) (key : Str) : Str :=
  match fmGet fm key with
  | none => []
  | some v =>
    if v.any (charIn yamlSpecialChars) || beginsWith v (str "-") then
      key ++ str ": " ++ ('"' :: (escapeQuotes v ++ ['"'])) ++ str "\n"
    else key ++ str ": " ++ v ++ str "\n"

/-- sync buildFrontmatter: fixed field order between marker lines. -/
def buildFrontmatter (fm : List (Str × Str)) : Str :=
  str "---\n" ++
  ([str "description", str "editor", str "gdrive-link", str "hash-gdrive",
    str "hash-content", str "published", str "tags", str "title"].map
      (buildFMLine fm)).flatten ++
  str "---\n"

/-- Match of the markdown link pattern
square-bracketed text followed by a parenthesized allowed-domain URL,
anchored at the head: non-empty text up to the first closing bracket, the
literal bracket-parenthesis pair, the Google domain, a non-empty run up to
the first closing parenthesis. Returns (link text, URL, remainder). -/
def tryMdLink (l : Str) : Option (Str × Str × Str) :=
  match l with
  | '[' :: r1 =>
    let text := r1.takeWhile fun c => c ≠ ']'
    if text = [] then none
    else
      match r1.dropWhile (fun c => c ≠ ']') with
      | ']' :: '(' :: r2 =>
        match stripUrlStart r2 with
        | some (dom, r3) =>
          let tail := r3.takeWhile fun c => c ≠ ')'
          if tail = [] then none
          else
            match r3.dropWhile (fun c => c ≠ ')') with
            | ')' :: rest => some (text, dom ++ tail, rest)
            | _ => none
        | none => none
      | _ => none
  | _ => none

/-- The replacement callback of sync RewriteLinks: resolve the target by
exact URL, then by extracted file ID; unresolved links stay verbatim;
resolved ones become a relative link to the target's normalized filename. -/
def mdReplacement (linkMap : Str → Option ConversionRecord)
    (sourceRecord : ConversionRecord) (text url : Str) : Str :=
  let original := '[' :: (text ++ (']' :: '(' :: (url ++ [')'])))
  let rewrite := fun (target : ConversionRecord) =>
    '[' :: (text ++ (']' :: '(' ::
      (CalculateRelativePath (getFragments sourceRecord) (getFragments target)
        (NormalizeFilename target.title) ++ [')'])))
  match linkMap url with
  | some target => rewrite target
  | none =>
    match ExtractFileID url with
    | .error _ => original
    | .ok targetID =>
      match linkMap targetID with
      | some target => rewrite target
      | none => original

/-- regexp.ReplaceAllStringFunc over the markdown-link pattern. Fuelled by
the string length, which suffices because every step consumes at least one
character. -/
def rewritePassFuel (linkMap : Str → Option ConversionRecord)
    (sourceRecord : ConversionRecord) : Nat → Str → Str
  | _, [] => []
  | 0, l => l
  | fuel + 1, l@(c :: restp) =>
    match tryMdLink l with
    | some (text, url, rest) =>
      mdReplacement linkMap sourceRecord text url ++
        rewritePassFuel linkMap sourceRecord fuel rest
    | none => c :: rewritePassFuel linkMap sourceRecord fuel restp

/-- sync LinkRewriter.RewriteLinks: utils line-join normalization, then the
markdown-link replacement pass. -/
def RewriteLinks (linkMap : Str → Option ConversionRecord) (content : Str)
    (sourceRecord : ConversionRecord) : Str :=
  let content := NormalizeMultilineURLs content
  rewritePassFuel linkMap sourceRecord content.length content

/-- Drive metadata as the Syncer fetches it (id, name, mimeType,
modifiedTime). -/
structure DriveFileMeta where
  id : Str
  name : Str
  mimeType : Str
  modifiedTime : Str
deriving DecidableEq, Repr

/-- The Syncer's collaborators: local file reads, remote metadata, remote
markdown export, the prebuilt link map (keyed by both literal URL and file
ID, as the Go map is), the content digest, and the dry-run flag. -/
structure SyncEnv where
  readFile : Str → Except Unit Str
  meta : Str → Except Unit DriveFileMeta
  exportContent : Str → Except Unit Str
  linkMap : Str → Option ConversionRecord
  hashFn : Str → Str
  dryRun : Bool

/-- sync exportDocument: only Google Workspace types export; the rest error. -/
def exportDocument (env : SyncEnv) (fileID mimeType : Str) : Except Unit Str :=
  if !beginsWith mimeType (str "application/vnd.google-apps.") then .error ()
  else env.exportContent fileID

/-- The observable outcome of syncFile: the result status and the written
file content when a write happens (none = no filesystem write). -/
structure SyncOutcome where
  status : Str
  write : Option Str
deriving DecidableEq, Repr

/-- sync syncFile: read and parse the file, skip on a missing hash-gdrive
key, on the stub marker, or on a missing gdrive-link key; re-fetch metadata;
an unchanged marker is status unchanged with no write; a changed marker
re-exports, rewrites links, rebuilds the header with the new marker and
digest, and writes (unless dry-run). -/
def syncFile (env : SyncEnv) (filePath : Str) : SyncOutcome :=
  match env.readFile filePath with
  | .error _ => ⟨str "error", none⟩
  | .ok content =>
    match parseFrontmatter content with
    | .error _ => ⟨str "error", none⟩
    | .ok (fm, _body) =>
      match fmGet fm (str "hash-gdrive") with
      | none => ⟨str "skipped", none⟩
      | some oldHash =>
        if oldHash = str "stub" then ⟨str "skipped", none⟩
        else
          match fmGet fm (str "gdrive-link") with
          | none => ⟨str "skipped", none⟩
          | some gdriveLink =>
            match ExtractFileID gdriveLink with
            | .error _ => ⟨str "error", none⟩
            | .ok fileID =>
              match env.meta fileID with
              | .error _ => ⟨str "error", none⟩
              | .ok file =>
                if oldHash = file.modifiedTime then ⟨str "unchanged", none⟩
                else
                  match exportDocument env fileID file.mimeType with
                  | .error _ => ⟨str "error", none⟩
                  | .ok newContent =>
                    match env.linkMap fileID with
                    | none => ⟨str "error", none⟩
                    | some record =>
                      let newContentStr := RewriteLinks env.linkMap newContent record
                      let contentWithPreamble :=
                        (str "> Link: " ++ gdriveLink) ++ str "\n\n" ++ newContentStr
                      let fm1 := fmInsert fm (str "hash-gdrive") file.modifiedTime
                      let fm2 := fmInsert fm1 (str "hash-content")
                        (env.hashFn contentWithPreamble)
                      let finalContent :=
                        buildFrontmatter fm2 ++ str "\n" ++ contentWithPreamble
                      if env.dryRun then ⟨str "updated", none⟩
                      else ⟨str "updated", some finalContent⟩

/-- C5 amended: for a materialized file whose parsed header carries a
non-stub hash-gdrive marker and a gdrive-link, when the re-fetched remote
ModifiedTime equals the stored marker, syncFile reports unchanged and
performs no filesystem write. -/
theorem c5_unchanged_marker_no_write (env : SyncEnv) (filePath content : Str)
    (fm : List (Str × Str)) (body hash link fid : Str) (file : DriveFileMeta)
    (hread : env.readFile filePath = .ok content)
    (hparse : parseFrontmatter content = .ok (fm, body))
    (hhash : fmGet fm (str "hash-gdrive") = some hash)
    (hstub : hash ≠ str "stub")
    (hlink : fmGet fm (str "gdrive-link") = some link)
    (hid : ExtractFileID link = .ok fid)
    (hmeta : env.meta fid = .ok file)
    (hsame : file.modifiedTime = hash) :
    syncFile env filePath = ⟨str "unchanged", none⟩ := by
  simp only [syncFile, hread, hparse, hhash, hlink, hid, hmeta]
  rw [if_neg hstub, if_pos hsame.symm]

/-- A concrete already-synced file (with a gdrive-link key) and a remote
whose marker matches, for the C5 witness. -/
def c5WitnessContent : Str :=
  str "---\ndescription: t\neditor: markdown\ngdrive-link: https://docs.google.com/document/d/abc123/edit\nhash-gdrive: 2024\nhash-content: x\npublished: true\ntitle: t\n---\nbody"

def c5WitnessEnv : SyncEnv :=
  { readFile := fun _ => .ok c5WitnessContent
    meta := fun _ =>
      .ok ⟨str "abc123", str "t", str "application/vnd.google-apps.document", str "2024"⟩
    exportContent := fun _ => .ok (str "body")
    linkMap := fun _ => none
    hashFn := fun _ => str "x"
    dryRun := false }

/-- C5 witness: the unchanged-marker theorem applied to the concrete file and
environment, every hypothesis evaluated. -/
theorem c5_unchanged_marker_no_write_witness :
    syncFile c5WitnessEnv (str "out.md") = ⟨str "unchanged", none⟩ :=
  c5_unchanged_marker_no_write c5WitnessEnv (str "out.md") c5WitnessContent
    [(str "description", str "t"), (str "editor", str "markdown"),
      (str "gdrive-link", str "https://docs.google.com/document/d/abc123/edit"),
      (str "hash-gdrive", str "2024"), (str "hash-content", str "x"),
      (str "published", str "true"), (str "title", str "t")]
    (str "body") (str "2024")
    (str "https://docs.google.com/document/d/abc123/edit") (str "abc123")
    ⟨str "abc123", str "t", str "application/vnd.google-apps.document", str "2024"⟩
    (by decide) (by decide) (by decide) (by decide) (by decide) (by decide)
    (by decide) (by decide)

/-- The conversion record, digest stand-in and environment for the C5
counterexample: the file on disk is exactly what convertRecord writes. -/
def c5Rec : ConversionRecord :=
  ⟨str "https://docs.google.com/document/d/abc123/edit", str "Doc", [], [], [], [], [], []⟩

def c5Hash : Str → Str :=
  fun _ => str "e3b0c44298fc1c149afbf4c8996fb92427ae41e4649b934ca495991b7852b855"

def c5Content : Str := convertFinalContent c5Hash c5Rec (str "2024") (str "hello")

def c5Env : SyncEnv :=
  { readFile := fun _ => .ok c5Content
    meta := fun _ =>
      .ok ⟨str "abc123", str "Doc", str "application/vnd.google-apps.document", str "2024"⟩
    exportContent := fun _ => .ok (str "hello")
    linkMap := fun _ => some c5Rec
    hashFn := c5Hash
    dryRun := false }

/-- C5 counterexample: a second sync pass over a file produced by a prior
convert pass does NOT yield status unchanged — convert's generateFrontmatter
writes no gdrive-link key, and syncFile skips any file without one, so the
status is skipped even though the remote marker is unchanged. -/
theorem c5_convert_output_is_skipped_not_unchanged :
    syncFile c5Env (str "out.md") = ⟨str "skipped", none⟩ ∧
      str "skipped" ≠ str "unchanged" := by
  constructor
  · decide
  · decide

end WsWk
